import Mathlib

/-!
Shallow embedding of the reconciliation engine of the
`webflow-integration-demo` repository (TypeScript sources under `src/`),
together with proofs settling the frozen claims about its specification.

The embedding follows the source files:
  * `src/utils/webflow.ts`  — remote state reader (`fetchAllItems`,
    `fetchAndMapItemsByIdentifier`, `getLocales`)
  * `src/utils/sync.ts`     — categorizer / per-collection sync pipeline
  * `src/utils/batch.ts`    — chunked batch operators
  * `src/utils/cleanup.ts`  — reference cleaner
  * `src/utils/rate-limiter.ts` — token-bucket scheduler

JavaScript `Map`s are modelled as insertion-ordered association lists,
JS objects holding field data as association lists from field slug to
value, `undefined` as `none`, thrown exceptions as `Except`/explicit
outcome types, and remote calls as environment functions giving each
call's outcome.  Wall-clock time in the rate limiter is modelled as a
discrete clock (`Nat` milliseconds) that advances exactly during the
awaited delays and wrapped operations, with the `setInterval` refill
firing at its scheduled instants.
-/

set_option maxRecDepth 4000

namespace WebflowSync

/-! ### Generic helpers -/

/-- JS truthiness of an optional string: `undefined` and `""` are falsy. -/
def truthy : Option String → Bool
  | none => false
  | some s => !(s == "")

/-- Lookup in an insertion-ordered association list (JS `Map.get` /
object property access): the first binding of the key, if any. -/
def alookup {β : Type} (m : List (String × β)) (k : String) : Option β :=
  (m.find? (fun p => p.1 == k)).map (·.2)

/-- The set of strings built by JS `new Set(list)`, as the list of first
occurrences in order (`insertionSetAux l seen` skips values in `seen`). -/
def insertionSetAux : List String → List String → List String
  | [], _ => []
  | v :: rest, seen =>
      if v ∈ seen then insertionSetAux rest seen
      else v :: insertionSetAux rest (v :: seen)

/-- JS `[...new Set(l)]`: first occurrences of `l`, in order. -/
def insertionSet (l : List String) : List String := insertionSetAux l []

theorem mem_insertionSetAux {l : List String} {seen : List String} {x : String} :
    x ∈ insertionSetAux l seen ↔ x ∈ l ∧ x ∉ seen := by
  induction l generalizing seen with
  | nil => simp [insertionSetAux]
  | cons v rest ih =>
      by_cases hv : v ∈ seen
      · simp only [insertionSetAux, if_pos hv, ih, List.mem_cons]
        constructor
        · rintro ⟨hx, hns⟩; exact ⟨Or.inr hx, hns⟩
        · rintro ⟨hx | hx, hns⟩
          · exact absurd (hx ▸ hv) hns
          · exact ⟨hx, hns⟩
      · simp only [insertionSetAux, if_neg hv, List.mem_cons, ih]
        constructor
        · rintro (rfl | ⟨hx, hns⟩)
          · exact ⟨Or.inl rfl, hv⟩
          · exact ⟨Or.inr hx, fun hc => hns (Or.inr hc)⟩
        · rintro ⟨rfl | hx, hns⟩
          · exact Or.inl rfl
          · by_cases hxv : x = v
            · exact Or.inl hxv
            · exact Or.inr ⟨hx, fun hc => by
                rcases hc with h | h
                · exact hxv h
                · exact hns h⟩

theorem nodup_insertionSetAux (l : List String) (seen : List String) :
    (insertionSetAux l seen).Nodup := by
  induction l generalizing seen with
  | nil => simp [insertionSetAux]
  | cons v rest ih =>
      by_cases hv : v ∈ seen
      · simpa [insertionSetAux, if_pos hv] using ih seen
      · simp only [insertionSetAux, if_neg hv]
        refine List.nodup_cons.mpr ⟨fun hc => ?_, ih (v :: seen)⟩
        exact (mem_insertionSetAux.mp hc).2 (List.mem_cons_self _ _)

theorem insertionSet_head? (l : List String) :
    (insertionSet l).head? = l.head? := by
  cases l with
  | nil => rfl
  | cons v rest => simp [insertionSet, insertionSetAux]

/-- A list has more than one distinct first-occurrence value exactly when
two of its members differ. -/
theorem one_lt_insertionSet_length_iff (l : List String) :
    1 < (insertionSet l).length ↔ ∃ v ∈ l, ∃ w ∈ l, v ≠ w := by
  constructor
  · intro h
    rcases hs : insertionSet l with _ | ⟨a, _ | ⟨b, tl⟩⟩
    · simp [hs] at h
    · simp [hs] at h
    · have hnd : (insertionSet l).Nodup := nodup_insertionSetAux l []
      rw [hs] at hnd
      have hab : a ≠ b := by
        intro hab
        exact (List.nodup_cons.mp hnd).1 (hab ▸ List.mem_cons_self _ _)
      have ha : a ∈ l := by
        have : a ∈ insertionSet l := by rw [hs]; exact List.mem_cons_self _ _
        exact (mem_insertionSetAux.mp this).1
      have hb : b ∈ l := by
        have : b ∈ insertionSet l := by
          rw [hs]; exact List.mem_cons_of_mem _ (List.mem_cons_self _ _)
        exact (mem_insertionSetAux.mp this).1
      exact ⟨a, ha, b, hb, hab⟩
  · rintro ⟨v, hv, w, hw, hvw⟩
    have hv' : v ∈ insertionSet l := mem_insertionSetAux.mpr ⟨hv, by simp⟩
    have hw' : w ∈ insertionSet l := mem_insertionSetAux.mpr ⟨hw, by simp⟩
    rcases hs : insertionSet l with _ | ⟨a, _ | ⟨b, tl⟩⟩
    · rw [hs] at hv'; simp at hv'
    · rw [hs] at hv' hw'
      simp only [List.mem_singleton] at hv' hw'
      exact absurd (hv'.trans hw'.symm) hvw
    · simp [hs]

/-! ### `src/utils/webflow.ts` — remote state reader -/

/-- `LocalizedItem` (webflow.ts): one locale-variant row of a CMS item.
`fieldData` is an association list from field slug to string value;
an absent key models JS `undefined`. -/
structure LocalizedItem where
  id : String
  cmsLocaleId : String
  fieldData : List (String × String)
deriving DecidableEq

/-- `ItemWithLocales` (webflow.ts): a CMS item grouped with all its
locale variants, flagged `corrupted` when the variants disagree on the
identifier field. -/
structure ItemWithLocales where
  id : String
  variants : List LocalizedItem
  corrupted : Bool
deriving DecidableEq

/-- JS `fieldData[key]` for the string-valued fields the reader uses. -/
def getProp (fd : List (String × String)) (key : String) : Option String :=
  alookup fd key

/-- The raw (pre-`Set`) identifier values of a variant list:
`variants.map(v => v.fieldData[identifierField]).filter(Boolean)`. -/
def rawIdentifierValues (identifierField : String) (variants : List LocalizedItem) :
    List String :=
  variants.filterMap (fun v =>
    match getProp v.fieldData identifierField with
    | some s => if s == "" then none else some s
    | none => none)

/-- `new Set(variants.map(...).filter(Boolean))` in
`fetchAndMapItemsByIdentifier`: distinct non-empty identifier values in
first-observed order. -/
def identifierValuesOf (identifierField : String) (variants : List LocalizedItem) :
    List String :=
  insertionSet (rawIdentifierValues identifierField variants)

/-- One step of the `grouped` Map construction in
`fetchAndMapItemsByIdentifier`: push `row` onto the group keyed by its
Webflow item id, creating the group at the end when absent. -/
def addToGroup (acc : List (String × List LocalizedItem)) (row : LocalizedItem) :
    List (String × List LocalizedItem) :=
  match acc with
  | [] => [(row.id, [row])]
  | (k, rs) :: rest =>
      if k == row.id then (k, rs ++ [row]) :: rest
      else (k, rs) :: addToGroup rest row

/-- Step 2 of `fetchAndMapItemsByIdentifier`: group rows by Webflow item
id, preserving the insertion order of a JS `Map`. -/
def groupByWebflowId (rows : List LocalizedItem) : List (String × List LocalizedItem) :=
  rows.foldl addToGroup []

/-- `identityMap.set(key, [...(identityMap.get(key) ?? []), group])`:
append a group under `k`, keeping the key's original position. -/
def upsertAppend (m : List (String × List ItemWithLocales)) (k : String)
    (g : ItemWithLocales) : List (String × List ItemWithLocales) :=
  match m with
  | [] => [(k, [g])]
  | (k', gs) :: rest =>
      if k' == k then (k', gs ++ [g]) :: rest
      else (k', gs) :: upsertAppend rest k g

/-- Steps 3–4 of `fetchAndMapItemsByIdentifier`: build the identity map
from the grouped rows, flagging corruption and discarding groups with no
identifier value. -/
def buildIdentityMap (identifierField : String)
    (grouped : List (String × List LocalizedItem)) :
    List (String × List ItemWithLocales) :=
  grouped.foldl (fun m p =>
    let vals := identifierValuesOf identifierField p.2
    let corrupted := 1 < vals.length
    match vals.head? with
    | none => m
    | some primaryIdentifier =>
        upsertAppend m primaryIdentifier ⟨p.1, p.2, decide corrupted⟩) []

/-- The row filter of step 1 of `fetchAndMapItemsByIdentifier`:
only rows with truthy `id` and `cmsLocaleId` are collected. -/
def collectRows (raw : List LocalizedItem) : List LocalizedItem :=
  raw.filter (fun r => !(r.id == "") && !(r.cmsLocaleId == ""))

/-- `fetchAndMapItemsByIdentifier` (webflow.ts), from the flat list of
locale-variant rows the pagination loop produced to the identity map. -/
def fetchAndMapItemsByIdentifier (raw : List LocalizedItem)
    (identifierField : String) : List (String × List ItemWithLocales) :=
  buildIdentityMap identifierField (groupByWebflowId (collectRows raw))

theorem upsertAppend_forall {P : String → ItemWithLocales → Prop}
    {m : List (String × List ItemWithLocales)} {k : String} {g : ItemWithLocales}
    (hm : ∀ p ∈ m, ∀ x ∈ p.2, P p.1 x) (hg : P k g) :
    ∀ p ∈ upsertAppend m k g, ∀ x ∈ p.2, P p.1 x := by
  induction m with
  | nil =>
      intro p hp x hx
      simp only [upsertAppend, List.mem_singleton] at hp
      subst hp
      simp only [List.mem_singleton] at hx
      subst hx
      exact hg
  | cons hd rest ih =>
      obtain ⟨k', gs⟩ := hd
      by_cases hkk : (k' == k) = true
      · intro p hp x hx
        simp only [upsertAppend, if_pos hkk] at hp
        rcases List.mem_cons.mp hp with rfl | hp'
        · rcases List.mem_append.mp hx with hx' | hx'
          · exact hm (k', gs) (List.mem_cons_self _ _) x hx'
          · have : x = g := List.mem_singleton.mp hx'
            subst this
            exact (eq_of_beq hkk) ▸ hg
        · exact hm p (List.mem_cons_of_mem _ hp') x hx
      · intro p hp x hx
        simp only [upsertAppend, if_neg hkk] at hp
        rcases List.mem_cons.mp hp with rfl | hp'
        · exact hm (k', gs) (List.mem_cons_self _ _) x hx
        · exact ih (fun q hq => hm q (List.mem_cons_of_mem _ hq)) p hp' x hx

/-- Every group placed in the identity map carries its corruption flag
and is keyed by its first observed non-empty identifier value. -/
theorem buildIdentityMap_invariant (identifierField : String)
    (grouped : List (String × List LocalizedItem)) :
    ∀ p ∈ buildIdentityMap identifierField grouped, ∀ g ∈ p.2,
      (g.corrupted = true ↔ 1 < (identifierValuesOf identifierField g.variants).length)
      ∧ (identifierValuesOf identifierField g.variants).head? = some p.1 := by
  suffices h : ∀ (l : List (String × List LocalizedItem))
      (m₀ : List (String × List ItemWithLocales)),
      (∀ p ∈ m₀, ∀ g ∈ p.2,
        (g.corrupted = true ↔ 1 < (identifierValuesOf identifierField g.variants).length)
        ∧ (identifierValuesOf identifierField g.variants).head? = some p.1) →
      ∀ p ∈ l.foldl (fun m q =>
          let vals := identifierValuesOf identifierField q.2
          let corrupted := 1 < vals.length
          match vals.head? with
          | none => m
          | some primaryIdentifier =>
              upsertAppend m primaryIdentifier ⟨q.1, q.2, decide corrupted⟩) m₀,
        ∀ g ∈ p.2,
          (g.corrupted = true ↔ 1 < (identifierValuesOf identifierField g.variants).length)
          ∧ (identifierValuesOf identifierField g.variants).head? = some p.1 by
    intro p hp
    exact h grouped [] (by simp) p hp
  intro l
  induction l with
  | nil => intro m₀ hm₀ p hp; exact hm₀ p hp
  | cons q rest ih =>
      intro m₀ hm₀ p hp
      simp only [List.foldl_cons] at hp
      rcases hh : (identifierValuesOf identifierField q.2).head? with _ | pk
      · rw [hh] at hp
        exact ih m₀ hm₀ p hp
      · rw [hh] at hp
        refine ih _ ?_ p hp
        refine upsertAppend_forall
          (P := fun key x =>
            (x.corrupted = true ↔ 1 < (identifierValuesOf identifierField x.variants).length)
            ∧ (identifierValuesOf identifierField x.variants).head? = some key)
          hm₀ ?_
        exact ⟨by simp, hh⟩

/-- C3: in the identity map built by the remote state reader, a group is
flagged `corrupted` exactly when its variants carry more than one
distinct non-empty value of the identifier field (i.e. the variants
disagree on it), the group's map key is the first observed non-empty
identifier value, and every group in the map has at least one such value
(groups with none are discarded). -/
theorem identity_map_corruption (raw : List LocalizedItem)
    (identifierField k : String) (gs : List ItemWithLocales) (g : ItemWithLocales)
    (hk : (k, gs) ∈ fetchAndMapItemsByIdentifier raw identifierField)
    (hg : g ∈ gs) :
    (g.corrupted = true ↔
      ∃ v ∈ rawIdentifierValues identifierField g.variants,
      ∃ w ∈ rawIdentifierValues identifierField g.variants, v ≠ w)
    ∧ (rawIdentifierValues identifierField g.variants).head? = some k
    ∧ rawIdentifierValues identifierField g.variants ≠ [] := by
  have h := buildIdentityMap_invariant identifierField
    (groupByWebflowId (collectRows raw)) (k, gs) hk g hg
  have hhead : (rawIdentifierValues identifierField g.variants).head? = some k := by
    rw [← insertionSet_head?]
    exact h.2
  refine ⟨?_, hhead, ?_⟩
  · rw [h.1]
    exact one_lt_insertionSet_length_iff _
  · intro hnil
    rw [hnil] at hhead
    simp at hhead

/-- Sample rows for the C3 witness: item `w1` has two locale variants
disagreeing on `external-id`, item `w2` is clean. -/
def c3rows : List LocalizedItem :=
  [⟨"w1", "lA", [("external-id", "x")]⟩,
   ⟨"w1", "lB", [("external-id", "y")]⟩,
   ⟨"w2", "lA", [("external-id", "z")]⟩]

/-- The corrupted group the reader builds for `w1` in `c3rows`. -/
def c3group : ItemWithLocales :=
  ⟨"w1", [⟨"w1", "lA", [("external-id", "x")]⟩, ⟨"w1", "lB", [("external-id", "y")]⟩], true⟩

/-- Witness for C3 at a concrete fetched row set. -/
theorem identity_map_corruption_witness :
    ("x", [c3group]) ∈ fetchAndMapItemsByIdentifier c3rows "external-id"
    ∧ c3group ∈ [c3group]
    ∧ ((c3group.corrupted = true ↔
        ∃ v ∈ rawIdentifierValues "external-id" c3group.variants,
        ∃ w ∈ rawIdentifierValues "external-id" c3group.variants, v ≠ w)
      ∧ (rawIdentifierValues "external-id" c3group.variants).head? = some "x"
      ∧ rawIdentifierValues "external-id" c3group.variants ≠ []) :=
  ⟨by decide, by decide,
    identity_map_corruption c3rows "external-id" "x" [c3group] c3group
      (by decide) (by decide)⟩

/-! ### `src/utils/sync.ts` — categorizer -/

/-- `LocalItem` (types.ts), restricted to the fields the categorizer
reads: the stable external identifier and the slug. -/
structure LocalItem where
  id : String
  slug : String
deriving DecidableEq

/-- One value of the `existingByIdentifier` lookup built in
`syncCollection`: the group's Webflow id and the locale ids present
among its variants. -/
structure ExistingEntry where
  webflowId : String
  localesPresent : List String
deriving DecidableEq

/-- The `existingByIdentifier` map of `syncCollection`: identifiers whose
single group is uncorrupted, with that group's id and locales.  Entries
with duplicate groups or a corrupted group are excluded (they are purged
instead). -/
def buildExisting (webflowMap : List (String × List ItemWithLocales)) :
    List (String × ExistingEntry) :=
  webflowMap.filterMap (fun p =>
    if 1 < p.2.length then none
    else match p.2 with
      | [g] =>
          if g.corrupted then none
          else some (p.1, ⟨g.id, g.variants.map (·.cmsLocaleId)⟩)
      | _ => none)

/-- The `corruptedIds` accumulator of `syncCollection`: all group ids of
duplicated identifiers, plus the ids of single corrupted groups. -/
def collectPurgeIds (webflowMap : List (String × List ItemWithLocales)) :
    List String :=
  webflowMap.flatMap (fun p =>
    if 1 < p.2.length then p.2.map (·.id)
    else match p.2 with
      | [g] => if g.corrupted then [g.id] else []
      | _ => [])

/-- `allLocaleIds.every(id => existing.localesPresent.has(id))`. -/
def hasAllLocales (allLocaleIds : List String) (present : List String) : Bool :=
  allLocaleIds.all (fun lid => present.contains lid)

/-- The `toCreate` bucket: local items whose identifier has no clean
single group (missing entirely, or purged as duplicate/corrupted). -/
def toCreateOf (items : List LocalItem) (existing : List (String × ExistingEntry)) :
    List LocalItem :=
  items.filter (fun it => (alookup existing it.id).isNone)

/-- The `toRecreate` bucket: local items whose clean single group is
missing at least one required locale, paired with the group's id. -/
def toRecreateOf (items : List LocalItem) (existing : List (String × ExistingEntry))
    (allLocaleIds : List String) : List (LocalItem × String) :=
  items.filterMap (fun it =>
    match alookup existing it.id with
    | none => none
    | some e =>
        if hasAllLocales allLocaleIds e.localesPresent then none
        else some (it, e.webflowId))

/-- The `toUpdate` bucket: local items whose clean single group has every
required locale present. -/
def toUpdateOf (items : List LocalItem) (existing : List (String × ExistingEntry))
    (allLocaleIds : List String) : List LocalItem :=
  items.filter (fun it =>
    match alookup existing it.id with
    | none => false
    | some e => hasAllLocales allLocaleIds e.localesPresent)

/-- The `orphanIds` accumulator: ids of clean single groups whose
identifier has no local item. -/
def orphanIdsOf (items : List LocalItem) (existing : List (String × ExistingEntry)) :
    List String :=
  existing.filterMap (fun p =>
    if items.any (fun it => it.id == p.1) then none else some p.2.webflowId)

/-- The four action buckets `syncCollection` produces in its categorize
step. -/
structure Categorization where
  corruptedIds : List String
  toCreate : List LocalItem
  toRecreate : List (LocalItem × String)
  toUpdate : List LocalItem
  orphanIds : List String
deriving DecidableEq

/-- The categorize step of `syncCollection` (sync.ts lines 194–274). -/
def categorize (items : List LocalItem)
    (webflowMap : List (String × List ItemWithLocales))
    (allLocaleIds : List String) : Categorization :=
  let existing := buildExisting webflowMap
  { corruptedIds := collectPurgeIds webflowMap
    toCreate := toCreateOf items existing
    toRecreate := toRecreateOf items existing allLocaleIds
    toUpdate := toUpdateOf items existing allLocaleIds
    orphanIds := orphanIdsOf items existing }

/-- `allIdsToDelete` (sync.ts lines 282–286): orphans, purged ids, and
the ids of the groups being recreated. -/
def allIdsToDelete (c : Categorization) : List String :=
  c.orphanIds ++ c.corruptedIds ++ c.toRecreate.map (·.2)

theorem alookup_mem {β : Type} {l : List (String × β)} {k : String} {v : β}
    (h : alookup l k = some v) : (k, v) ∈ l := by
  unfold alookup at h
  cases hf : l.find? (fun p => p.1 == k) with
  | none => rw [hf] at h; simp at h
  | some p =>
      rw [hf] at h
      simp only [Option.map_some', Option.some.injEq] at h
      have hp := List.find?_some hf
      have hmem := List.mem_of_find?_eq_some hf
      have hk : p.1 = k := eq_of_beq hp
      have : (k, v) = p := by
        cases p with
        | mk a b => simp only [Prod.mk.injEq]; exact ⟨hk.symm, h.symm⟩
      exact this ▸ hmem

theorem alookup_cons {β : Type} (p : String × β) (l : List (String × β)) (k : String) :
    alookup (p :: l) k = if p.1 == k then some p.2 else alookup l k := by
  unfold alookup
  cases h : (p.1 == k) <;> simp [List.find?, h]

theorem mem_alookup {β : Type} {l : List (String × β)}
    (hnd : (l.map Prod.fst).Nodup) {k : String} {v : β}
    (h : (k, v) ∈ l) : alookup l k = some v := by
  induction l with
  | nil => simp at h
  | cons p rest ih =>
      rcases List.mem_cons.mp h with rfl | h'
      · rw [alookup_cons]
        simp
      · have hkrest : k ∈ rest.map Prod.fst :=
          List.mem_map.mpr ⟨(k, v), h', rfl⟩
        have hne : ¬(p.1 == k) = true := by
          intro hbeq
          have : p.1 = k := eq_of_beq hbeq
          rw [List.map_cons, List.nodup_cons] at hnd
          exact hnd.1 (this ▸ hkrest)
        rw [alookup_cons, if_neg hne]
        exact ih (by rw [List.map_cons, List.nodup_cons] at hnd; exact hnd.2) h'

theorem alookup_eq_none {β : Type} {l : List (String × β)} {k : String}
    (h : ∀ v, (k, v) ∉ l) : alookup l k = none := by
  cases ha : alookup l k with
  | none => rfl
  | some v => exact absurd (alookup_mem ha) (h v)

theorem alookup_unique {β : Type} {l : List (String × β)}
    (hnd : (l.map Prod.fst).Nodup) {k : String} {a b : β}
    (ha : (k, a) ∈ l) (hb : (k, b) ∈ l) : a = b := by
  have h1 := mem_alookup hnd ha
  have h2 := mem_alookup hnd hb
  rw [h1] at h2
  exact (Option.some.injEq _ _).mp h2

theorem filterMap_keys_sublist {α β : Type} (f : (String × α) → Option (String × β))
    (hf : ∀ p q, f p = some q → q.1 = p.1) (l : List (String × α)) :
    ((l.filterMap f).map Prod.fst).Sublist (l.map Prod.fst) := by
  induction l with
  | nil => simp
  | cons p rest ih =>
      rw [List.filterMap_cons]
      cases hfp : f p with
      | none => exact (List.map_cons _ _ _ ▸ List.Sublist.cons p.1 ih)
      | some q =>
          rw [List.map_cons, List.map_cons, hf p q hfp]
          exact List.Sublist.cons₂ p.1 ih

/-- Membership characterization of `existingByIdentifier` (forward). -/
theorem mem_buildExisting {m : List (String × List ItemWithLocales)}
    {k : String} {e : ExistingEntry} (h : (k, e) ∈ buildExisting m) :
    ∃ g, (k, [g]) ∈ m ∧ g.corrupted = false
      ∧ e = ⟨g.id, g.variants.map (·.cmsLocaleId)⟩ := by
  obtain ⟨p, hp, hfp⟩ := List.mem_filterMap.mp h
  by_cases h1 : 1 < p.2.length
  · simp only [if_pos h1] at hfp; exact absurd hfp (by simp)
  · simp only [if_neg h1] at hfp
    rcases hgs : p.2 with _ | ⟨g, _ | ⟨g', tl⟩⟩
    · rw [hgs] at hfp; exact absurd hfp (by simp)
    · rw [hgs] at hfp
      by_cases hc : g.corrupted
      · simp only [if_pos hc] at hfp; exact absurd hfp (by simp)
      · simp only [if_neg hc] at hfp
        simp only [Option.some.injEq, Prod.mk.injEq] at hfp
        refine ⟨g, ?_, by simpa using hc, hfp.2.symm⟩
        have : p = (k, [g]) := by
          cases p with
          | mk a b => simp only [Prod.mk.injEq]; exact ⟨hfp.1, by simpa using hgs⟩
        exact this ▸ hp
    · rw [hgs] at hfp; exact absurd hfp (by simp)

/-- Membership characterization of `existingByIdentifier` (backward). -/
theorem buildExisting_mem {m : List (String × List ItemWithLocales)}
    {k : String} {g : ItemWithLocales} (h : (k, [g]) ∈ m)
    (hc : g.corrupted = false) :
    (k, (⟨g.id, g.variants.map (·.cmsLocaleId)⟩ : ExistingEntry)) ∈ buildExisting m := by
  refine List.mem_filterMap.mpr ⟨(k, [g]), h, ?_⟩
  simp [hc]

theorem buildExisting_keys_nodup {m : List (String × List ItemWithLocales)}
    (hkeys : (m.map Prod.fst).Nodup) :
    ((buildExisting m).map Prod.fst).Nodup := by
  refine List.Nodup.sublist (filterMap_keys_sublist _ ?_ m) hkeys
  intro p q hpq
  by_cases h1 : 1 < p.2.length
  · simp only [if_pos h1] at hpq; exact absurd hpq (by simp)
  · simp only [if_neg h1] at hpq
    rcases hgs : p.2 with _ | ⟨g, _ | ⟨g', tl⟩⟩ <;> rw [hgs] at hpq
    · exact absurd hpq (by simp)
    · by_cases hc : g.corrupted
      · simp only [if_pos hc] at hpq; exact absurd hpq (by simp)
      · simp only [if_neg hc, Option.some.injEq] at hpq
        rw [← hpq]
    · exact absurd hpq (by simp)

/-- A purged identifier (duplicate groups, or a single corrupted group)
never reaches `existingByIdentifier`. -/
theorem alookup_buildExisting_purged {m : List (String × List ItemWithLocales)}
    (hkeys : (m.map Prod.fst).Nodup) {k : String} {gs : List ItemWithLocales}
    (hmem : (k, gs) ∈ m)
    (hshape : 1 < gs.length ∨ ∃ g, gs = [g] ∧ g.corrupted = true) :
    alookup (buildExisting m) k = none := by
  refine alookup_eq_none (fun e he => ?_)
  obtain ⟨g, hgm, hgc, _⟩ := mem_buildExisting he
  have : gs = [g] := alookup_unique hkeys hmem hgm
  subst this
  rcases hshape with h1 | ⟨g', hg', hc'⟩
  · simp at h1
  · have : g' = g := by simpa using hg'.symm
    subst this
    rw [hgc] at hc'
    exact Bool.false_ne_true hc'

theorem hasAllLocales_iff (locs present : List String) :
    hasAllLocales locs present = true ↔ ∀ lid ∈ locs, lid ∈ present := by
  simp only [hasAllLocales, List.all_eq_true]
  constructor
  · intro h lid hl; exact List.elem_iff.mp (h lid hl)
  · intro h lid hl; exact List.elem_iff.mpr (h lid hl)

/-- C1: the categorize step of `syncCollection` partitions work exactly
as specified.  For a remote identity map with unique identifier keys:
(1) an identifier with more than one group sends all group ids to the
delete set and any local item with that identifier to `toCreate`;
(2) a single corrupted group sends its id to the delete set and the
local item to `toCreate`; (3) a single clean group missing at least one
required locale sends the local item to `toRecreate` paired with the
group id, which is also deleted; (4) a single clean group with every
required locale present sends the local item to `toUpdate`; (5) a local
item with no group at all goes to `toCreate`; (6) a clean, non-duplicate
group whose identifier has no local item has its id deleted as an
orphan. -/
theorem categorize_partitions (items : List LocalItem)
    (m : List (String × List ItemWithLocales)) (locs : List String)
    (hkeys : (m.map Prod.fst).Nodup) :
    (∀ k gs, (k, gs) ∈ m → 1 < gs.length →
      (∀ g ∈ gs, g.id ∈ allIdsToDelete (categorize items m locs))
      ∧ ∀ it ∈ items, it.id = k → it ∈ (categorize items m locs).toCreate)
    ∧ (∀ k g, (k, [g]) ∈ m → g.corrupted = true →
      g.id ∈ allIdsToDelete (categorize items m locs)
      ∧ ∀ it ∈ items, it.id = k → it ∈ (categorize items m locs).toCreate)
    ∧ (∀ k g, (k, [g]) ∈ m → g.corrupted = false →
      (∃ lid ∈ locs, ∀ v ∈ g.variants, v.cmsLocaleId ≠ lid) →
      ∀ it ∈ items, it.id = k →
        (it, g.id) ∈ (categorize items m locs).toRecreate
        ∧ g.id ∈ allIdsToDelete (categorize items m locs))
    ∧ (∀ k g, (k, [g]) ∈ m → g.corrupted = false →
      (∀ lid ∈ locs, ∃ v ∈ g.variants, v.cmsLocaleId = lid) →
      ∀ it ∈ items, it.id = k → it ∈ (categorize items m locs).toUpdate)
    ∧ (∀ it ∈ items, (∀ gs, (it.id, gs) ∉ m) → it ∈ (categorize items m locs).toCreate)
    ∧ (∀ k g, (k, [g]) ∈ m → g.corrupted = false → (∀ it ∈ items, it.id ≠ k) →
      g.id ∈ (categorize items m locs).orphanIds
      ∧ g.id ∈ allIdsToDelete (categorize items m locs)) := by
  have hexnd : ((buildExisting m).map Prod.fst).Nodup := buildExisting_keys_nodup hkeys
  have hpurge_del : ∀ x, x ∈ collectPurgeIds m →
      x ∈ allIdsToDelete (categorize items m locs) := by
    intro x hx
    unfold allIdsToDelete categorize
    simp only [List.mem_append]
    exact Or.inl (Or.inr hx)
  have horphan_del : ∀ x, x ∈ orphanIdsOf items (buildExisting m) →
      x ∈ allIdsToDelete (categorize items m locs) := by
    intro x hx
    unfold allIdsToDelete categorize
    simp only [List.mem_append]
    exact Or.inl (Or.inl hx)
  have hcreate : ∀ it ∈ items, alookup (buildExisting m) it.id = none →
      it ∈ (categorize items m locs).toCreate := by
    intro it hit hnone
    unfold categorize toCreateOf
    exact List.mem_filter.mpr ⟨hit, by rw [hnone]; rfl⟩
  refine ⟨?_, ?_, ?_, ?_, ?_, ?_⟩
  · -- (1) duplicates
    intro k gs hmem hlen
    constructor
    · intro g hg
      refine hpurge_del _ (List.mem_flatMap.mpr ⟨(k, gs), hmem, ?_⟩)
      simp only [if_pos hlen]
      exact List.mem_map.mpr ⟨g, hg, rfl⟩
    · intro it hit hid
      exact hcreate it hit
        (hid ▸ alookup_buildExisting_purged hkeys hmem (Or.inl hlen))
  · -- (2) single corrupted
    intro k g hmem hcor
    constructor
    · refine hpurge_del _ (List.mem_flatMap.mpr ⟨(k, [g]), hmem, ?_⟩)
      simp [hcor]
    · intro it hit hid
      exact hcreate it hit
        (hid ▸ alookup_buildExisting_purged hkeys hmem (Or.inr ⟨g, rfl, hcor⟩))
  · -- (3) single clean, missing a locale
    intro k g hmem hcor hmiss it hit hid
    have hex : (k, (⟨g.id, g.variants.map (·.cmsLocaleId)⟩ : ExistingEntry)) ∈
        buildExisting m := buildExisting_mem hmem hcor
    have hlook : alookup (buildExisting m) it.id =
        some ⟨g.id, g.variants.map (·.cmsLocaleId)⟩ := hid ▸ mem_alookup hexnd hex
    have hall : hasAllLocales locs (g.variants.map (·.cmsLocaleId)) = false := by
      rcases hmiss with ⟨lid, hlid, hnone⟩
      cases hb : hasAllLocales locs (g.variants.map (·.cmsLocaleId)) with
      | false => rfl
      | true =>
          have := (hasAllLocales_iff _ _).mp hb lid hlid
          obtain ⟨v, hv, hveq⟩ := List.mem_map.mp this
          exact absurd hveq (hnone v hv)
    have hrec : (it, g.id) ∈ (categorize items m locs).toRecreate := by
      unfold categorize toRecreateOf
      refine List.mem_filterMap.mpr ⟨it, hit, ?_⟩
      rw [hlook]
      simp [hall]
    refine ⟨hrec, ?_⟩
    unfold allIdsToDelete
    simp only [List.mem_append]
    exact Or.inr (List.mem_map.mpr ⟨(it, g.id), hrec, rfl⟩)
  · -- (4) single clean, all locales present
    intro k g hmem hcor hfull it hit hid
    have hex : (k, (⟨g.id, g.variants.map (·.cmsLocaleId)⟩ : ExistingEntry)) ∈
        buildExisting m := buildExisting_mem hmem hcor
    have hlook : alookup (buildExisting m) it.id =
        some ⟨g.id, g.variants.map (·.cmsLocaleId)⟩ := hid ▸ mem_alookup hexnd hex
    have hall : hasAllLocales locs (g.variants.map (·.cmsLocaleId)) = true := by
      refine (hasAllLocales_iff _ _).mpr (fun lid hlid => ?_)
      obtain ⟨v, hv, hveq⟩ := hfull lid hlid
      exact List.mem_map.mpr ⟨v, hv, hveq⟩
    unfold categorize toUpdateOf
    refine List.mem_filter.mpr ⟨hit, ?_⟩
    rw [hlook]
    exact hall
  · -- (5) no group at all
    intro it hit hno
    refine hcreate it hit (alookup_eq_none (fun e he => ?_))
    obtain ⟨g, hgm, _, _⟩ := mem_buildExisting he
    exact hno [g] hgm
  · -- (6) orphan
    intro k g hmem hcor hnolocal
    have hex : (k, (⟨g.id, g.variants.map (·.cmsLocaleId)⟩ : ExistingEntry)) ∈
        buildExisting m := buildExisting_mem hmem hcor
    have horp : g.id ∈ (categorize items m locs).orphanIds := by
      unfold categorize orphanIdsOf
      refine List.mem_filterMap.mpr
        ⟨(k, ⟨g.id, g.variants.map (·.cmsLocaleId)⟩), hex, ?_⟩
      have hany : (items.any (fun it => it.id == k)) = false := by
        rw [List.any_eq_false]
        intro it hit hbeq
        exact hnolocal it hit (eq_of_beq hbeq)
      dsimp only
      rw [hany]
      simp
    exact ⟨horp, horphan_del _ horp⟩

/-- C1 witness data: the duplicate groups for identifier `a`. -/
def c1dups : List ItemWithLocales :=
  [⟨"w1", [⟨"w1", "lA", [("external-id", "a")]⟩], false⟩,
   ⟨"w2", [⟨"w2", "lA", [("external-id", "a")]⟩], false⟩]

/-- C1 witness data: the clean group for `c`, missing locale `lB`. -/
def c1incomplete : ItemWithLocales :=
  ⟨"w4", [⟨"w4", "lA", [("external-id", "c")]⟩], false⟩

/-- C1 witness data: the clean, complete group for `d` (an orphan). -/
def c1orphan : ItemWithLocales :=
  ⟨"w5", [⟨"w5", "lA", [("external-id", "d")]⟩,
          ⟨"w5", "lB", [("external-id", "d")]⟩], false⟩

/-- Sample identity map for the C1 witness: identifier `a` has duplicate
groups, `b` a corrupted group, `c` a clean group missing locale `lB`,
`d` a clean complete group with no matching local item, and local item
`e` has no group. -/
def c1map : List (String × List ItemWithLocales) :=
  [("a", c1dups),
   ("b", [⟨"w3", [⟨"w3", "lA", [("external-id", "b")]⟩], true⟩]),
   ("c", [c1incomplete]),
   ("d", [c1orphan])]

/-- Local items for the C1 witness. -/
def c1items : List LocalItem :=
  [⟨"a", "sa"⟩, ⟨"b", "sb"⟩, ⟨"c", "sc"⟩, ⟨"e", "se"⟩]

/-- Witness for C1 at a concrete map and item set, exercising the
duplicate, recreate and orphan clauses. -/
theorem categorize_partitions_witness :
    (c1map.map Prod.fst).Nodup
    ∧ "w1" ∈ allIdsToDelete (categorize c1items c1map ["lA", "lB"])
    ∧ (⟨"c", "sc"⟩, "w4") ∈ (categorize c1items c1map ["lA", "lB"]).toRecreate
    ∧ "w5" ∈ (categorize c1items c1map ["lA", "lB"]).orphanIds := by
  have h := categorize_partitions c1items c1map ["lA", "lB"] (by decide)
  refine ⟨by decide, ?_, ?_, ?_⟩
  · exact (h.1 "a" c1dups (by decide) (by decide)).1
      ⟨"w1", [⟨"w1", "lA", [("external-id", "a")]⟩], false⟩ (by decide)
  · exact ((h.2.2.1 "c" c1incomplete (by decide) (by decide)
      ⟨"lB", by decide, by decide⟩ ⟨"c", "sc"⟩ (by decide) rfl)).1
  · exact (h.2.2.2.2.2 "d" c1orphan (by decide) (by decide) (by decide)).1

/-! ### `src/utils/batch.ts` — chunked batch operators

Each operator slices its input into chunks (`for (i = 0; i < n; i +=
batchSize)`), issues remote calls per chunk, and collects failures
instead of throwing.  Remote call outcomes are supplied by environment
functions indexed by chunk number.  Chunking is implemented with
explicit fuel (an upper bound on the number of chunks) so that it is
structurally recursive and computable; `fuel = l.length` always
suffices for a positive chunk size. -/

/-- `chunksOfGo n fuel l`: the successive `l.slice(i, i + n)` windows,
consuming one unit of fuel per chunk. -/
def chunksOfGo {α : Type} (n : Nat) : Nat → List α → List (List α)
  | _, [] => []
  | 0, _ :: _ => []
  | fuel + 1, x :: xs => (x :: xs).take n :: chunksOfGo n fuel ((x :: xs).drop n)

/-- The chunking every batch operator performs with batch size `n`. -/
def chunksOf {α : Type} (n : Nat) (l : List α) : List (List α) :=
  chunksOfGo n l.length l

theorem chunksOfGo_join {α : Type} (n : Nat) (hn : 0 < n) :
    ∀ (fuel : Nat) (l : List α), l.length ≤ fuel →
      (chunksOfGo n fuel l).flatten = l := by
  intro fuel
  induction fuel with
  | zero =>
      intro l hl
      cases l with
      | nil => rfl
      | cons x xs => simp at hl
  | succ f ih =>
      intro l hl
      cases l with
      | nil => rfl
      | cons x xs =>
          have hdrop : ((x :: xs).drop n).length ≤ f := by
            rw [List.length_drop]
            have : 0 < (x :: xs).length := by simp
            omega
          simp only [chunksOfGo, List.flatten_cons, ih _ hdrop]
          exact List.take_append_drop n (x :: xs)

/-- Chunking splits the input back into the original list. -/
theorem chunksOf_join {α : Type} (n : Nat) (hn : 0 < n) (l : List α) :
    (chunksOf n l).flatten = l :=
  chunksOfGo_join n hn l.length l le_rfl

theorem chunksOfGo_length_le {α : Type} (n : Nat) :
    ∀ (fuel : Nat) (l : List α), ∀ c ∈ chunksOfGo n fuel l, c.length ≤ n := by
  intro fuel
  induction fuel with
  | zero =>
      intro l c hc
      cases l with
      | nil => simp [chunksOfGo] at hc
      | cons x xs => simp [chunksOfGo] at hc
  | succ f ih =>
      intro l c hc
      cases l with
      | nil => simp [chunksOfGo] at hc
      | cons x xs =>
          simp only [chunksOfGo] at hc
          rcases List.mem_cons.mp hc with rfl | hc'
          · simp [List.length_take_le n (x :: xs)]
          · exact ih _ c hc'

/-- Every chunk respects the per-request size limit. -/
theorem chunksOf_length_le {α : Type} (n : Nat) (l : List α) :
    ∀ c ∈ chunksOf n l, c.length ≤ n :=
  chunksOfGo_length_le n l.length l

/-- One remote call of the double-delete pattern in `batchDelete`. -/
inductive DeleteCall where
  | unpublishLive (chunk : Nat)
  | permanentDelete (chunk : Nat)
deriving DecidableEq

/-- Outcomes of the two remote calls `batchDelete` makes per chunk:
`true` means the promise resolves, `false` that it rejects. -/
structure DeleteEnv where
  unpublishOk : Nat → Bool
  deleteOk : Nat → Bool

/-- The chunk loop of `batchDelete` (batch.ts lines 32–58), recorded as
(deleted count, indices of chunks whose try-block threw, attempted
remote calls in order).  Both remote calls sit in one `try` block: when
the unpublish call rejects, control jumps to `catch` and the permanent
delete of that chunk is never attempted. -/
def batchDeleteGo (env : DeleteEnv) : List (List String) → Nat →
    Nat × List Nat × List DeleteCall
  | [], _ => (0, [], [])
  | chunk :: rest, i =>
      let r := batchDeleteGo env rest (i + 1)
      if env.unpublishOk i then
        if env.deleteOk i then
          (chunk.length + r.1, r.2.1, .unpublishLive i :: .permanentDelete i :: r.2.2)
        else
          (r.1, i :: r.2.1, .unpublishLive i :: .permanentDelete i :: r.2.2)
      else
        (r.1, i :: r.2.1, .unpublishLive i :: r.2.2)

/-- `batchDelete` (batch.ts): double delete in chunks of 100. -/
def batchDelete (itemIds : List String) (env : DeleteEnv) :
    Nat × List Nat × List DeleteCall :=
  if itemIds.isEmpty then (0, [], [])
  else batchDeleteGo env (chunksOf 100 itemIds) 0

/-- `batchCreate` (batch.ts): create items in chunks of 100; returns the
success count and the failing chunk indices.  `α` stands for the built
field-data payloads. -/
def batchCreate {α : Type} (fieldDataArray : List α) (createOk : Nat → Bool) :
    Nat × List Nat :=
  if fieldDataArray.isEmpty then (0, [])
  else go (chunksOf 100 fieldDataArray) 0
where
  go : List (List α) → Nat → Nat × List Nat
    | [], _ => (0, [])
    | chunk :: rest, i =>
        let r := go rest (i + 1)
        if createOk i then (chunk.length + r.1, r.2) else (r.1, i :: r.2)

/-- Full characterization of the calls `batchDelete`'s chunk loop
attempts and the errors it records, for chunks numbered from `i`. -/
theorem batchDeleteGo_calls (env : DeleteEnv) :
    ∀ (chunks : List (List String)) (i j : Nat),
      (DeleteCall.unpublishLive j ∈ (batchDeleteGo env chunks i).2.2
        ↔ i ≤ j ∧ j < i + chunks.length)
      ∧ (DeleteCall.permanentDelete j ∈ (batchDeleteGo env chunks i).2.2
        ↔ i ≤ j ∧ j < i + chunks.length ∧ env.unpublishOk j = true)
      ∧ (j ∈ (batchDeleteGo env chunks i).2.1
        ↔ i ≤ j ∧ j < i + chunks.length
          ∧ ¬(env.unpublishOk j = true ∧ env.deleteOk j = true)) := by
  intro chunks
  induction chunks with
  | nil =>
      intro i j
      have hns : ¬(i ≤ j ∧ j < i + ([] : List (List String)).length) := by
        simp only [List.length_nil, Nat.add_zero]
        omega
      exact ⟨iff_of_false (by simp [batchDeleteGo]) hns,
             iff_of_false (by simp [batchDeleteGo]) (fun h => hns ⟨h.1, h.2.1⟩),
             iff_of_false (by simp [batchDeleteGo]) (fun h => hns ⟨h.1, h.2.1⟩)⟩
  | cons c rest ih =>
      intro i j
      have ihj := ih (i + 1) j
      by_cases hj : j = i
      · subst hj
        have hnr1 : ¬(j + 1 ≤ j) := by omega
        have h1 : DeleteCall.unpublishLive j ∉ (batchDeleteGo env rest (j + 1)).2.2 :=
          fun hm => hnr1 (ihj.1.mp hm).1
        have h2 : DeleteCall.permanentDelete j ∉ (batchDeleteGo env rest (j + 1)).2.2 :=
          fun hm => hnr1 (ihj.2.1.mp hm).1
        have h3 : j ∉ (batchDeleteGo env rest (j + 1)).2.1 :=
          fun hm => hnr1 (ihj.2.2.mp hm).1
        by_cases hu : env.unpublishOk j = true <;>
          by_cases hd : env.deleteOk j = true <;>
          refine ⟨?_, ?_, ?_⟩ <;>
          simp [batchDeleteGo, hu, hd, h1, h2, h3, List.length_cons]
      · have hju : ¬(DeleteCall.unpublishLive j = DeleteCall.unpublishLive i) := by
          intro h; exact hj (DeleteCall.unpublishLive.inj h)
        have hjp : ¬(DeleteCall.permanentDelete j = DeleteCall.permanentDelete i) := by
          intro h; exact hj (DeleteCall.permanentDelete.inj h)
        by_cases hu : env.unpublishOk i = true <;>
          by_cases hd : env.deleteOk i = true <;>
          refine ⟨?_, ?_, ?_⟩ <;>
          (simp [batchDeleteGo, hu, hd, hju, hjp, hj, ihj.1, ihj.2.1, ihj.2.2]
           first
             | done
             | omega
             | (by_cases hB : env.unpublishOk j = true <;>
                 by_cases hC : env.deleteOk j = true <;>
                 simp [hB, hC] <;> omega))


/-- Counterexample for C4 as stated: with a single chunk `["item1"]`
whose unpublish call rejects, `batchDelete` attempts only the unpublish
call — the permanent-delete call of that chunk is never attempted. -/
theorem double_delete_cex :
    (batchDelete ["item1"] ⟨fun _ => false, fun _ => true⟩).2.2
      = [DeleteCall.unpublishLive 0]
    ∧ DeleteCall.permanentDelete 0
      ∉ (batchDelete ["item1"] ⟨fun _ => false, fun _ => true⟩).2.2 := by
  constructor
  · rfl
  · intro h
    simp only [batchDelete, chunksOf] at h
    revert h
    decide

/-- C4 (amended): for every chunk, `batchDelete` always attempts the
unpublish call — a failure in an earlier chunk never prevents later
chunks — and attempts the permanent-delete call of a chunk if and only
if that chunk's unpublish call succeeded (both calls share one
`try` block, so a rejected unpublish skips the chunk's permanent
delete); a chunk whose either call rejects is recorded as a delete
error, and the run continues. -/
theorem double_delete_phases (itemIds : List String) (env : DeleteEnv)
    (i : Nat) (hi : i < (chunksOf 100 itemIds).length) :
    DeleteCall.unpublishLive i ∈ (batchDelete itemIds env).2.2
    ∧ (DeleteCall.permanentDelete i ∈ (batchDelete itemIds env).2.2
        ↔ env.unpublishOk i = true)
    ∧ (i ∈ (batchDelete itemIds env).2.1
        ↔ ¬(env.unpublishOk i = true ∧ env.deleteOk i = true)) := by
  have hne : ¬itemIds.isEmpty = true := by
    intro he
    rw [List.isEmpty_iff.mp he] at hi
    simp [chunksOf, chunksOfGo] at hi
  have hbd : batchDelete itemIds env = batchDeleteGo env (chunksOf 100 itemIds) 0 := by
    unfold batchDelete
    rw [if_neg hne]
  have h := batchDeleteGo_calls env (chunksOf 100 itemIds) 0 i
  rw [hbd]
  refine ⟨h.1.mpr ⟨Nat.zero_le _, by omega⟩, ?_, ?_⟩
  · rw [h.2.1]
    constructor
    · exact fun hh => hh.2.2
    · exact fun hh => ⟨Nat.zero_le _, by omega, hh⟩
  · rw [h.2.2]
    constructor
    · exact fun hh => hh.2.2
    · exact fun hh => ⟨Nat.zero_le _, by omega, hh⟩

/-- Witness for C4 (amended) at one chunk whose unpublish call fails. -/
theorem double_delete_phases_witness :
    0 < (chunksOf 100 ["item1"]).length
    ∧ DeleteCall.unpublishLive 0
        ∈ (batchDelete ["item1"] ⟨fun _ => false, fun _ => true⟩).2.2
    ∧ (DeleteCall.permanentDelete 0
        ∈ (batchDelete ["item1"] ⟨fun _ => false, fun _ => true⟩).2.2
        ↔ (⟨fun _ => false, fun _ => true⟩ : DeleteEnv).unpublishOk 0 = true) :=
  ⟨by decide,
    (double_delete_phases ["item1"] ⟨fun _ => false, fun _ => true⟩ 0 (by decide)).1,
    (double_delete_phases ["item1"] ⟨fun _ => false, fun _ => true⟩ 0 (by decide)).2.1⟩

/-- A `DeleteEnv` in which every remote call succeeds. -/
def allOkDeleteEnv : DeleteEnv := ⟨fun _ => true, fun _ => true⟩

/-- The delete and create counting of `syncCollection` steps 2–3
(sync.ts lines 280–317) for a run in which every remote call succeeds:
`result.deleted = min(totalDeleted, orphans + corrupted)` — recreates
are deliberately not counted — and `result.created` counts the new plus
recreated items handed to `batchCreate`. -/
def syncDeleteCreateCounts {β : Type} (buildFieldData : LocalItem → β)
    (items : List LocalItem) (webflowMap : List (String × List ItemWithLocales))
    (allLocaleIds : List String) : Nat × Nat :=
  let c := categorize items webflowMap allLocaleIds
  let totalDeleted := (batchDelete (allIdsToDelete c) allOkDeleteEnv).1
  let deleted := min totalDeleted (c.orphanIds.length + c.corruptedIds.length)
  let allToCreate := c.toCreate ++ c.toRecreate.map (·.1)
  let created := (batchCreate (allToCreate.map buildFieldData) (fun _ => true)).1
  (deleted, created)

/-- The C2 scenario's single local item. -/
def c2items : List LocalItem := [⟨"c1", "barre"⟩]

/-- The C2 scenario's remote map: one clean group for `c1` with only one
of the two configured locale variants. -/
def c2map : List (String × List ItemWithLocales) :=
  [("c1", [⟨"wf1", [⟨"wf1", "lA", [("external-id", "c1")]⟩], false⟩])]

/-- Counterexample for C2 as stated: in the 1-of-2-locales scenario the
item is categorized `toRecreate`, but the returned `deleted` count is
not 1 — `syncCollection` counts only orphans and corrupted groups as
deleted (`Math.min(totalDeleted, orphanIds.length + corruptedIds.length)`),
so the recreated group's deletion is excluded. -/
theorem recreate_counts_cex :
    (⟨"c1", "barre"⟩, "wf1") ∈ (categorize c2items c2map ["lA", "lB"]).toRecreate
    ∧ (syncDeleteCreateCounts (fun it => it.slug) c2items c2map ["lA", "lB"]).1 ≠ 1 := by
  decide

/-- C2 (amended): in the 1-of-2-locales scenario the item is categorized
`toRecreate`, its old group id is sent to the delete step, and the run
reports `deleted = 0` (recreate deletions are excluded from the count)
and `created = 1` (the fresh, fully localized group). -/
theorem recreate_counts :
    (⟨"c1", "barre"⟩, "wf1") ∈ (categorize c2items c2map ["lA", "lB"]).toRecreate
    ∧ "wf1" ∈ allIdsToDelete (categorize c2items c2map ["lA", "lB"])
    ∧ syncDeleteCreateCounts (fun it => it.slug) c2items c2map ["lA", "lB"] = (0, 1) := by
  decide

/-- `EnrichedLocale` (webflow.ts): a locale with guaranteed non-empty
`id`, `tag` and `cmsLocaleId`, and the primary flag. -/
structure EnrichedLocale where
  id : String
  tag : String
  cmsLocaleId : String
  isPrimary : Bool
deriving DecidableEq

/-- One entry of a staged-update payload (`UpdateEntry` in batch.ts). -/
structure UpdateEntry where
  id : String
  cmsLocaleId : String
  fieldData : List (String × String)
deriving DecidableEq

/-- `const { slug, ...fieldData } = buildFieldData(...)` in sync.ts step
5: the built field data without its `slug` property. -/
def stripSlug (fd : List (String × String)) : List (String × String) :=
  fd.filter (fun p => !(p.1 == "slug"))

/-- The `updateEntries` construction of `syncCollection` step 5
(sync.ts lines 342–358): each local item that resolved to a Webflow id
expands to one slug-stripped entry per configured locale; unresolved
items are skipped. -/
def updateEntriesFor (items : List LocalItem) (idByIdentifier : List (String × String))
    (locales : List EnrichedLocale)
    (buildFieldData : LocalItem → String → List (String × String)) :
    List UpdateEntry :=
  items.flatMap (fun it =>
    match alookup idByIdentifier it.id with
    | none => []
    | some webflowId =>
        locales.map (fun locale =>
          { id := webflowId
            cmsLocaleId := locale.cmsLocaleId
            fieldData := stripSlug (buildFieldData it locale.tag) }))

/-- The chunk loop of `batchUpdate` (batch.ts lines 133–158): the flat
entry list is sliced into windows of `batchSize = 100` entries — not
`floor(100 / localeCount)` items — and each window is one request to the
staged update endpoint.  Returns the success count and the request
payloads. -/
def batchUpdate (entries : List UpdateEntry) (updateOk : Nat → Bool) :
    Nat × List (List UpdateEntry) :=
  if entries.isEmpty then (0, [])
  else (go (chunksOf 100 entries) 0, chunksOf 100 entries)
where
  go : List (List UpdateEntry) → Nat → Nat
    | [], _ => 0
    | c :: rest, i => (if updateOk i then c.length else 0) + go rest (i + 1)

/-- The three configured locales of the C6 failing input. -/
def c6locales : List EnrichedLocale :=
  [⟨"en", "en", "lEN", true⟩, ⟨"de", "de", "lDE", false⟩, ⟨"fr", "fr", "lFR", false⟩]

/-- The 34 local items of the C6 failing input. -/
def c6items : List LocalItem :=
  (List.range 34).map (fun n => ⟨"i" ++ toString n, "s" ++ toString n⟩)

/-- The resolved identifier-to-Webflow-id map of the C6 failing input. -/
def c6idMap : List (String × String) :=
  (List.range 34).map (fun n => ("i" ++ toString n, "w" ++ toString n))

/-- The locale-expanded update entries of the C6 failing input. -/
def c6entries : List UpdateEntry :=
  updateEntriesFor c6items c6idMap c6locales
    (fun it tag => [("name", it.slug), ("slug", it.slug), ("external-id", it.id ++ tag)])

/-- C6 failing input, evaluated: with 3 configured locales and 34
resolved items the flat entry list has 102 entries, and `batchUpdate`
sends a first request of 100 entries covering 34 distinct items — more
than `floor(100 / 3) = 33` — with item `i33`'s three locale entries
split across the two requests (1 in the first, 2 in the second).  The
claim (and the code's own comments) say each request holds at most
`floor(100 / N)` items with an item's entries never split. -/
theorem update_chunking_splits_items :
    c6entries.length = 102
    ∧ (batchUpdate c6entries (fun _ => true)).2.length = 2
    ∧ ((batchUpdate c6entries (fun _ => true)).2.headD []).length = 100
    ∧ ((((batchUpdate c6entries (fun _ => true)).2.headD []).map (·.id)).dedup).length = 34
    ∧ 100 / c6locales.length = 33
    ∧ (((batchUpdate c6entries (fun _ => true)).2.headD []).countP (·.id == "w33")) = 1
    ∧ ((((batchUpdate c6entries (fun _ => true)).2.getD 1 []).map (·.id)).countP (· == "w33")) = 2 := by
  decide

/-- The error shape the Webflow SDK throws: an optional HTTP status and
a message. -/
structure ApiError where
  statusCode : Option Nat
  message : String
deriving DecidableEq

/-- Outcome of one publish request. -/
inductive PubOutcome where
  | ok
  | err (e : ApiError)
deriving DecidableEq

/-- Whether the character list starts with the pattern. -/
def startsWithChars : List Char → List Char → Bool
  | _, [] => true
  | [], _ :: _ => false
  | c :: cs, p :: ps => c == p && startsWithChars cs ps

/-- JS `s.includes(pat)` on character lists: the pattern occurs at some
position. -/
def containsChars : List Char → List Char → Bool
  | [], pat => pat.isEmpty
  | c :: cs, pat => startsWithChars (c :: cs) pat || containsChars cs pat

/-- `isSiteNotPublishedError` (batch.ts lines 218–226): a 409 whose
lower-cased message mentions "not published". -/
def isSiteNotPublishedError (e : ApiError) : Bool :=
  e.statusCode == some 409
    && containsChars (e.message.data.map Char.toLower) "not published".data

/-- The chunk loop of `batchPublish` (batch.ts lines 173–213), recorded
as (published count, error entries as (chunk index, message), attempted
chunk indices).  A "site not published" conflict returns the count so
far, recording no error and attempting no further chunk; any other
failure is recorded and the loop continues. -/
def batchPublishGo (env : Nat → PubOutcome) : List (List String) → Nat →
    Nat × List (Nat × String) × List Nat
  | [], _ => (0, [], [])
  | c :: rest, i =>
      match env i with
      | .ok =>
          let r := batchPublishGo env rest (i + 1)
          (c.length + r.1, r.2.1, i :: r.2.2)
      | .err e =>
          if isSiteNotPublishedError e then (0, [], [i])
          else
            let r := batchPublishGo env rest (i + 1)
            (r.1, (i, e.message) :: r.2.1, i :: r.2.2)

/-- `batchPublish` (batch.ts): publish in chunks of 100. -/
def batchPublish (itemIds : List String) (env : Nat → PubOutcome) :
    Nat × List (Nat × String) × List Nat :=
  if itemIds.isEmpty then (0, [], []) else batchPublishGo env (chunksOf 100 itemIds) 0

/-- Whether the publish call for chunk `i` resolves. -/
def pubOk (env : Nat → PubOutcome) (i : Nat) : Bool :=
  match env i with
  | .ok => true
  | .err _ => false

/-- The items published by the successful chunks before cutoff `k`,
chunks numbered from `i`. -/
def publishedBefore (env : Nat → PubOutcome) : List (List String) → Nat → Nat → Nat
  | [], _, _ => 0
  | c :: rest, i, k =>
      (if i < k && pubOk env i then c.length else 0) + publishedBefore env rest (i + 1) k

theorem publishedBefore_zero (env : Nat → PubOutcome) :
    ∀ (chunks : List (List String)) (i k : Nat), k ≤ i →
      publishedBefore env chunks i k = 0 := by
  intro chunks
  induction chunks with
  | nil => intro i k _; rfl
  | cons c rest ih =>
      intro i k hk
      have hlt : ¬(i < k) := by omega
      simp [publishedBefore, hlt]
      exact ih (i + 1) k (by omega)

/-- Behaviour of `batchPublish`'s chunk loop: attempted chunks are an
index range; a soft "site not published" conflict ends the run with no
error entry, returning the items published so far; any other failure is
recorded and the next chunk is still attempted. -/
theorem batchPublishGo_spec (env : Nat → PubOutcome) :
    ∀ (chunks : List (List String)) (i : Nat),
      (∀ j ∈ (batchPublishGo env chunks i).2.2, i ≤ j ∧ j < i + chunks.length)
      ∧ (i < i + chunks.length → i ∈ (batchPublishGo env chunks i).2.2)
      ∧ (∀ k e, env k = .err e → isSiteNotPublishedError e = true →
          k ∈ (batchPublishGo env chunks i).2.2 →
          (∀ j, k < j → j ∉ (batchPublishGo env chunks i).2.2)
          ∧ (∀ s, (k, s) ∉ (batchPublishGo env chunks i).2.1)
          ∧ (batchPublishGo env chunks i).1 = publishedBefore env chunks i k)
      ∧ (∀ k e, env k = .err e → isSiteNotPublishedError e = false →
          k ∈ (batchPublishGo env chunks i).2.2 →
          (k, e.message) ∈ (batchPublishGo env chunks i).2.1
          ∧ (k + 1 < i + chunks.length →
              k + 1 ∈ (batchPublishGo env chunks i).2.2)) := by
  intro chunks
  induction chunks with
  | nil =>
      intro i
      refine ⟨by simp [batchPublishGo], by simp, ?_, ?_⟩
      · intro k e _ _ hk
        simp [batchPublishGo] at hk
      · intro k e _ _ hk
        simp [batchPublishGo] at hk
  | cons c rest ih =>
      intro i
      have ihi := ih (i + 1)
      cases henv : env i with
      | ok =>
          have hpub : pubOk env i = true := by simp [pubOk, henv]
          refine ⟨?_, ?_, ?_, ?_⟩
          · intro j hj
            simp only [batchPublishGo, henv, List.mem_cons] at hj
            rcases hj with rfl | hj'
            · simp
            · have := ihi.1 j hj'
              constructor <;> [omega; (simp only [List.length_cons]; omega)]
          · intro _
            simp [batchPublishGo, henv]
          · intro k e hke hsoft hk
            simp only [batchPublishGo, henv, List.mem_cons] at hk
            rcases hk with rfl | hk'
            · rw [henv] at hke; exact absurd hke (by simp)
            · have hki : i + 1 ≤ k := (ihi.1 k hk').1
              have h3 := ihi.2.2.1 k e hke hsoft hk'
              refine ⟨?_, ?_, ?_⟩
              · intro j hj hmem
                simp only [batchPublishGo, henv, List.mem_cons] at hmem
                rcases hmem with rfl | hmem'
                · omega
                · exact h3.1 j hj hmem'
              · intro s hmem
                simp only [batchPublishGo, henv] at hmem
                exact h3.2.1 s hmem
              · simp only [batchPublishGo, henv, publishedBefore]
                have hik : i < k := by omega
                simp only [decide_eq_true hik, hpub, Bool.and_self, if_true]
                rw [h3.2.2]
          · intro k e hke hsoft hk
            simp only [batchPublishGo, henv, List.mem_cons] at hk
            rcases hk with rfl | hk'
            · rw [henv] at hke; exact absurd hke (by simp)
            · have h4 := ihi.2.2.2 k e hke hsoft hk'
              refine ⟨?_, ?_⟩
              · simp only [batchPublishGo, henv]
                exact h4.1
              · intro hlt
                simp only [batchPublishGo, henv, List.mem_cons]
                refine Or.inr (h4.2 ?_)
                simp only [List.length_cons] at hlt
                omega
      | err e0 =>
          by_cases hs : isSiteNotPublishedError e0 = true
          · refine ⟨?_, ?_, ?_, ?_⟩
            · intro j hj
              simp only [batchPublishGo, henv, if_pos hs, List.mem_singleton] at hj
              subst hj
              simp
            · intro _
              simp [batchPublishGo, henv, hs]
            · intro k e hke hsoft hk
              simp only [batchPublishGo, henv, if_pos hs, List.mem_singleton] at hk
              subst hk
              refine ⟨?_, ?_, ?_⟩
              · intro j hj hmem
                simp only [batchPublishGo, henv, if_pos hs, List.mem_singleton] at hmem
                omega
              · intro s hmem
                simp only [batchPublishGo, henv, if_pos hs] at hmem
                simp at hmem
              · simp only [batchPublishGo, henv, if_pos hs]
                rw [publishedBefore_zero env (c :: rest) k k le_rfl]
            · intro k e hke hsoft hk
              simp only [batchPublishGo, henv, if_pos hs, List.mem_singleton] at hk
              subst hk
              rw [henv] at hke
              have : e0 = e := by
                injection hke
              rw [this] at hs
              rw [hs] at hsoft
              exact absurd hsoft (by simp)
          · have hs' : isSiteNotPublishedError e0 = false := by
              cases h : isSiteNotPublishedError e0 with
              | false => rfl
              | true => exact absurd h hs
            have hpub : pubOk env i = false := by simp [pubOk, henv]
            refine ⟨?_, ?_, ?_, ?_⟩
            · intro j hj
              simp only [batchPublishGo, henv, if_neg hs, List.mem_cons] at hj
              rcases hj with rfl | hj'
              · simp
              · have := ihi.1 j hj'
                constructor <;> [omega; (simp only [List.length_cons]; omega)]
            · intro _
              simp [batchPublishGo, henv, hs]
            · intro k e hke hsoft hk
              simp only [batchPublishGo, henv, if_neg hs, List.mem_cons] at hk
              rcases hk with rfl | hk'
              · rw [henv] at hke
                have : e0 = e := by injection hke
                rw [this] at hs
                exact absurd hsoft hs
              · have hki : i + 1 ≤ k := (ihi.1 k hk').1
                have h3 := ihi.2.2.1 k e hke hsoft hk'
                refine ⟨?_, ?_, ?_⟩
                · intro j hj hmem
                  simp only [batchPublishGo, henv, if_neg hs, List.mem_cons] at hmem
                  rcases hmem with rfl | hmem'
                  · omega
                  · exact h3.1 j hj hmem'
                · intro s hmem
                  simp only [batchPublishGo, henv, if_neg hs, List.mem_cons] at hmem
                  rcases hmem with heq | hmem'
                  · have : k = i := by
                      have := congrArg Prod.fst heq
                      simpa using this
                    omega
                  · exact h3.2.1 s hmem'
                · simp only [batchPublishGo, henv, if_neg hs, publishedBefore]
                  simp [hpub, h3.2.2]
            · intro k e hke hsoft hk
              simp only [batchPublishGo, henv, if_neg hs, List.mem_cons] at hk
              rcases hk with rfl | hk'
              · rw [henv] at hke
                have he : e0 = e := by injection hke
                subst he
                refine ⟨?_, ?_⟩
                · simp [batchPublishGo, henv, hs]
                · intro hlt
                  simp only [batchPublishGo, henv, if_neg hs, List.mem_cons]
                  refine Or.inr (ihi.2.1 ?_)
                  simp only [List.length_cons] at hlt
                  omega
              · have h4 := ihi.2.2.2 k e hke hsoft hk'
                refine ⟨?_, ?_⟩
                · simp only [batchPublishGo, henv, if_neg hs, List.mem_cons]
                  exact Or.inr h4.1
                · intro hlt
                  simp only [batchPublishGo, henv, if_neg hs, List.mem_cons]
                  refine Or.inr (h4.2 ?_)
                  simp only [List.length_cons] at hlt
                  omega

/-- C8: whenever a publish chunk fails with the "site not published"
conflict, `batchPublish` attempts no later chunk, records no error entry
for that failure, and returns the count of items published by the
successful chunks before it; any other chunk failure is recorded as an
error and the next chunk is still attempted. -/
theorem publish_soft_conflict (itemIds : List String) (env : Nat → PubOutcome) :
    (∀ k e, env k = .err e → isSiteNotPublishedError e = true →
      k ∈ (batchPublish itemIds env).2.2 →
      (∀ j, k < j → j ∉ (batchPublish itemIds env).2.2)
      ∧ (∀ s, (k, s) ∉ (batchPublish itemIds env).2.1)
      ∧ (batchPublish itemIds env).1
          = publishedBefore env (chunksOf 100 itemIds) 0 k)
    ∧ (∀ k e, env k = .err e → isSiteNotPublishedError e = false →
      k ∈ (batchPublish itemIds env).2.2 →
      (k, e.message) ∈ (batchPublish itemIds env).2.1
      ∧ (k + 1 < (chunksOf 100 itemIds).length →
          k + 1 ∈ (batchPublish itemIds env).2.2)) := by
  by_cases hemp : itemIds.isEmpty = true
  · have hb : batchPublish itemIds env = (0, [], []) := by
      unfold batchPublish
      rw [if_pos hemp]
    rw [hb]
    refine ⟨?_, ?_⟩
    · intro k e _ _ hk
      simp at hk
    · intro k e _ _ hk
      simp at hk
  · have hb : batchPublish itemIds env = batchPublishGo env (chunksOf 100 itemIds) 0 := by
      unfold batchPublish
      rw [if_neg hemp]
    rw [hb]
    have h := batchPublishGo_spec env (chunksOf 100 itemIds) 0
    refine ⟨h.2.2.1, ?_⟩
    intro k e hke hsoft hk
    have h4 := h.2.2.2 k e hke hsoft hk
    exact ⟨h4.1, fun hlt => h4.2 (by omega)⟩

/-- The 101 item ids of the C8 witness (two chunks of 100 and 1). -/
def c8ids : List String := (List.range 101).map (fun n => "p" ++ toString n)

/-- The "site not published" 409 of the C8 witness. -/
def c8softErr : ApiError := ⟨some 409, "Site Not Published yet"⟩

/-- C8 witness environment: chunk 0 publishes, chunk 1 hits the soft
conflict. -/
def c8env : Nat → PubOutcome := fun i => if i == 0 then .ok else .err c8softErr

/-- Witness for C8: the soft conflict on chunk 1 stops the run with no
error entry and 100 items published. -/
theorem publish_soft_conflict_witness :
    c8env 1 = PubOutcome.err c8softErr
    ∧ isSiteNotPublishedError c8softErr = true
    ∧ 1 ∈ (batchPublish c8ids c8env).2.2
    ∧ ((∀ j, 1 < j → j ∉ (batchPublish c8ids c8env).2.2)
       ∧ (∀ s, (1, s) ∉ (batchPublish c8ids c8env).2.1)
       ∧ (batchPublish c8ids c8env).1
           = publishedBefore c8env (chunksOf 100 c8ids) 0 1) :=
  ⟨rfl, by decide, by decide,
    (publish_soft_conflict c8ids c8env).1 1 c8softErr rfl (by decide) (by decide)⟩

/-! ### `src/utils/webflow.ts` `getLocales` and the setup phase of
`syncCollection` (sync.ts lines 124–182) -/

/-- A locale as the sites API returns it (`Locale` of the SDK): every
field optional, `enabled` for secondary locales. -/
structure RawLocale where
  id : Option String
  tag : Option String
  cmsLocaleId : Option String
  enabled : Bool
deriving DecidableEq

/-- `site.locales`: an optional primary locale and the secondary
locales. -/
structure SiteLocales where
  primary : Option RawLocale
  secondary : List RawLocale
deriving DecidableEq

/-- `getLocales` (webflow.ts lines 205–236).  Throws — modelled as
`Except.error` — when the site has no primary locale or any enabled
locale lacks `id`, `tag` or `cmsLocaleId`.  `isPrimary` models the JS
reference equality `l === site.locales.primary`, which holds exactly
for the list head pushed first. -/
def getLocales (site : SiteLocales) : Except String (List EnrichedLocale) :=
  match site.primary with
  | none => Except.error "No primary locale found for site"
  | some p =>
      (p :: site.secondary.filter (·.enabled)).enum.mapM (fun q =>
        if truthy q.2.id && truthy q.2.tag && truthy q.2.cmsLocaleId then
          Except.ok ⟨q.2.id.getD "", q.2.tag.getD "", q.2.cmsLocaleId.getD "",
            q.1 == 0⟩
        else Except.error "Invalid locale found — missing id, tag or cmsLocaleId")

/-- How the setup phase of `syncCollection` ends. -/
inductive SetupOutcome where
  | returned (errors : List String) (created updated deleted published : Nat)
  | thrown (msg : String)
  | proceeds (locales : List EnrichedLocale)
deriving DecidableEq

/-- The setup phase of `syncCollection` (sync.ts lines 124–182, schema
option absent): a failing `collections.get` is caught and returned as a
single-error result with all counts zero; `getLocales` is awaited with
no surrounding try/catch, so its exception propagates (`thrown`); the
`!primaryLocale` branch then returns a single-error result. -/
def syncCollectionSetup (collectionFetchOk : Bool) (site : SiteLocales) :
    SetupOutcome :=
  if !collectionFetchOk then
    .returned ["Collection not found"] 0 0 0 0
  else
    match getLocales site with
    | .error e => .thrown e
    | .ok locales =>
        match locales.find? (·.isPrimary) with
        | none => .returned ["No primary locale found"] 0 0 0 0
        | some _ => .proceeds locales

/-- C5 failing input, evaluated: a failed collection fetch is returned
as a single-error result with zero counts, as the claim says; but on a
site with no primary locale `getLocales` throws
"No primary locale found for site" and `syncCollection` awaits it
outside any try/catch, so the exception propagates to the caller
instead of being returned — the `!primaryLocale` return branch
(sync.ts line 178) is unreachable. -/
theorem setup_no_primary_throws :
    syncCollectionSetup false ⟨some ⟨some "l", some "en", some "c", true⟩, []⟩
      = SetupOutcome.returned ["Collection not found"] 0 0 0 0
    ∧ syncCollectionSetup true ⟨none, []⟩
      = SetupOutcome.thrown "No primary locale found for site"
    ∧ syncCollectionSetup true ⟨some ⟨some "l", some "en", some "c", true⟩, []⟩
      = SetupOutcome.proceeds [⟨"l", "en", "c", true⟩] := by
  decide

/-! ### `src/utils/cleanup.ts` — reference cleaner -/

/-- A reference-field value as `removeReferencesToItems` inspects it:
a string (single reference), an array of id strings (multi reference),
null, or anything else. -/
inductive FieldVal where
  | str (s : String)
  | arr (ids : List String)
  | nullV
  | other
deriving DecidableEq

/-- An item of the referencing collection: optional id and field data. -/
structure RefItem where
  id : Option String
  fieldData : List (String × FieldVal)
deriving DecidableEq

/-- `ReferenceFieldDescriptor` (types.ts): one reference field and its
multiplicity. -/
structure ReferenceFieldDescriptor where
  fieldId : String
  isMulti : Bool
deriving DecidableEq

/-- The per-descriptor body of the scan loop in `removeReferencesToItems`
(cleanup.ts lines 62–79): the updated value the descriptor contributes,
or `none` when the field is left untouched. -/
def cleanField (idsToRemove : List String) (d : ReferenceFieldDescriptor) :
    Option FieldVal → Option FieldVal
  | some (.arr xs) =>
      if d.isMulti then
        let filtered := xs.filter (fun x => !idsToRemove.contains x)
        if filtered.length != xs.length then some (.arr filtered) else none
      else none
  | some (.str s) =>
      if !d.isMulti && idsToRemove.contains s then some FieldVal.nullV else none
  | _ => none

/-- The `updatedFieldData` object one item accumulates: one entry per
descriptor whose field changed. -/
def changedFields (refFields : List ReferenceFieldDescriptor) (ids : List String)
    (fd : List (String × FieldVal)) : List (String × FieldVal) :=
  refFields.filterMap (fun d =>
    (cleanField ids d (alookup fd d.fieldId)).map (fun v => (d.fieldId, v)))

/-- The `itemsToUpdate` list of `removeReferencesToItems` (cleanup.ts
lines 53–84): items with an id and at least one changed field, paired
with their updated field data.  Items with no change are skipped. -/
def itemsToUpdateOf (items : List RefItem) (refFields : List ReferenceFieldDescriptor)
    (ids : List String) : List (String × List (String × FieldVal)) :=
  items.filterMap (fun it =>
    match it.id with
    | none => none
    | some iid =>
        let upd := changedFields refFields ids it.fieldData
        if upd.isEmpty then none else some (iid, upd))

theorem changedFields_keys {refFields : List ReferenceFieldDescriptor}
    {ids : List String} {fd : List (String × FieldVal)} {k : String} {v : FieldVal}
    (h : (k, v) ∈ changedFields refFields ids fd) :
    k ∈ refFields.map (·.fieldId) := by
  obtain ⟨d, hd, hdv⟩ := List.mem_filterMap.mp h
  cases hc : cleanField ids d (alookup fd d.fieldId) with
  | none => rw [hc] at hdv; exact absurd hdv (by simp)
  | some v' =>
      rw [hc] at hdv
      simp only [Option.map_some', Option.some.injEq, Prod.mk.injEq] at hdv
      exact List.mem_map.mpr ⟨d, hd, hdv.1⟩

theorem alookup_changedFields {refFields : List ReferenceFieldDescriptor}
    {ids : List String} (fd : List (String × FieldVal))
    (hnd : (refFields.map (·.fieldId)).Nodup) {d : ReferenceFieldDescriptor}
    (hd : d ∈ refFields) :
    alookup (changedFields refFields ids fd) d.fieldId
      = cleanField ids d (alookup fd d.fieldId) := by
  induction refFields with
  | nil => simp at hd
  | cons d0 rest ih =>
      rw [List.map_cons, List.nodup_cons] at hnd
      rcases List.mem_cons.mp hd with rfl | hd'
      · have hnone : ∀ v, (d.fieldId, v) ∉ changedFields rest ids fd := by
          intro v hv
          exact hnd.1 (changedFields_keys hv)
        cases hc : cleanField ids d (alookup fd d.fieldId) with
        | none =>
            simp only [changedFields, List.filterMap_cons, hc, Option.map_none']
            exact alookup_eq_none hnone
        | some v =>
            simp only [changedFields, List.filterMap_cons, hc, Option.map_some']
            rw [alookup_cons]
            simp
      · have hne : d.fieldId ≠ d0.fieldId := by
          intro he
          exact hnd.1 (he ▸ List.mem_map.mpr ⟨d, hd', rfl⟩)
        have goal' := ih hnd.2 hd'
        cases hc : cleanField ids d0 (alookup fd d0.fieldId) with
        | none =>
            simp only [changedFields, List.filterMap_cons, hc, Option.map_none']
            exact goal'
        | some v =>
            simp only [changedFields, List.filterMap_cons, hc, Option.map_some']
            rw [alookup_cons, if_neg (by simp [Ne.symm hne])]
            exact goal'

/-- C7: the reference-cleaning scan writes exactly the items with a
changed reference field: the update payload holds an item iff it has an
id and at least one descriptor changed its field; each descriptor's
contribution is `cleanField` of its current value; a multi-reference
array is either untouched (when it holds no deleted id) or replaced by
the subsequence of exactly its non-deleted ids, in order and with
multiplicity; a single-reference string is set to null iff it is a
deleted id. -/
theorem reference_cleaning (items : List RefItem)
    (refFields : List ReferenceFieldDescriptor) (ids : List String)
    (hnd : (refFields.map (·.fieldId)).Nodup) :
    (∀ p, p ∈ itemsToUpdateOf items refFields ids ↔
      ∃ it ∈ items, it.id = some p.1
        ∧ changedFields refFields ids it.fieldData = p.2 ∧ p.2 ≠ [])
    ∧ (∀ fd : List (String × FieldVal), ∀ d ∈ refFields,
        alookup (changedFields refFields ids fd) d.fieldId
          = cleanField ids d (alookup fd d.fieldId))
    ∧ (∀ d : ReferenceFieldDescriptor, ∀ xs : List String, d.isMulti = true →
        ((∀ x ∈ xs, x ∉ ids) → cleanField ids d (some (.arr xs)) = none)
        ∧ ((∃ x ∈ xs, x ∈ ids) →
            ∃ r, cleanField ids d (some (.arr xs)) = some (.arr r)
              ∧ r.Sublist xs
              ∧ (∀ x, x ∈ r ↔ x ∈ xs ∧ x ∉ ids)
              ∧ (∀ x, x ∉ ids → r.count x = xs.count x)))
    ∧ (∀ d : ReferenceFieldDescriptor, ∀ s : String, d.isMulti = false →
        cleanField ids d (some (.str s))
          = (if s ∈ ids then some FieldVal.nullV else none)) := by
  refine ⟨?_, ?_, ?_, ?_⟩
  · intro p
    constructor
    · intro hp
      obtain ⟨it, hit, hf⟩ := List.mem_filterMap.mp hp
      cases hid : it.id with
      | none => rw [hid] at hf; exact absurd hf (by simp)
      | some iid =>
          rw [hid] at hf
          simp only at hf
          by_cases hemp : (changedFields refFields ids it.fieldData).isEmpty = true
          · rw [if_pos hemp] at hf; exact absurd hf (by simp)
          · rw [if_neg hemp] at hf
            simp only [Option.some.injEq] at hf
            refine ⟨it, hit, ?_, ?_, ?_⟩
            · rw [hid, ← hf]
            · rw [← hf]
            · rw [← hf]
              simpa [List.isEmpty_iff] using hemp
    · rintro ⟨it, hit, hid, hch, hne⟩
      refine List.mem_filterMap.mpr ⟨it, hit, ?_⟩
      rw [hid]
      simp only
      have hemp : (changedFields refFields ids it.fieldData).isEmpty = false := by
        rw [List.isEmpty_eq_false_iff_exists_mem]
        cases hl : changedFields refFields ids it.fieldData with
        | nil => rw [hl] at hch; exact absurd hch.symm hne
        | cons a tl => exact ⟨a, by simp⟩
      rw [hemp]
      simp only [Bool.false_eq_true, if_false, Option.some.injEq]
      cases p with
      | mk a b => simp only [Prod.mk.injEq]; exact ⟨trivial, hch⟩
  · intro fd d hd
    exact alookup_changedFields fd hnd hd
  · intro d xs hm
    constructor
    · intro hnone
      simp only [cleanField, hm, if_true]
      simp
      exact hnone
    · intro hsome
      have hlt : (xs.filter (fun x => !ids.contains x)).length < xs.length := by
        refine List.length_filter_lt_length_iff_exists.mpr ?_
        obtain ⟨x, hx, hxid⟩ := hsome
        exact ⟨x, hx, by simp [List.elem_iff, hxid]⟩
      refine ⟨xs.filter (fun x => !ids.contains x), ?_, List.filter_sublist xs, ?_, ?_⟩
      · simp only [cleanField, hm, if_true]
        have : ((xs.filter (fun x => !ids.contains x)).length != xs.length) = true := by
          simp only [bne_iff_ne, ne_eq]
          omega
        rw [this]
        simp
      · intro x
        rw [List.mem_filter]
        simp [List.elem_iff]
      · intro x hx
        refine List.count_filter ?_
        simp [List.elem_iff, hx]
  · intro d s hm
    by_cases hs : s ∈ ids
    · simp [cleanField, hm, List.elem_iff.mpr hs, hs]
    · have : ids.contains s = false := by
        rw [← Bool.not_eq_true]
        intro hc
        exact hs (List.elem_iff.mp hc)
      simp [cleanField, hm, this, hs]

/-- The referencing items of the C7 witness: `s1` references deleted
city `c1` and holds it in its category array; `s2` has no stale
reference. -/
def c7items : List RefItem :=
  [⟨some "s1", [("city", .str "c1"), ("cats", .arr ["a", "c1", "b"])]⟩,
   ⟨some "s2", [("city", .str "x"), ("cats", .arr ["a", "b"])]⟩]

/-- The reference descriptors of the C7 witness. -/
def c7fields : List ReferenceFieldDescriptor := [⟨"city", false⟩, ⟨"cats", true⟩]

/-- Witness for C7 at a concrete collection: only `s1` is written, its
single reference nulled and `c1` filtered out of its array. -/
theorem reference_cleaning_witness :
    (c7fields.map (·.fieldId)).Nodup
    ∧ (("s1", [("city", FieldVal.nullV), ("cats", FieldVal.arr ["a", "b"])])
        ∈ itemsToUpdateOf c7items c7fields ["c1"]
      ↔ ∃ it ∈ c7items, it.id = some "s1"
          ∧ changedFields c7fields ["c1"] it.fieldData
              = [("city", FieldVal.nullV), ("cats", FieldVal.arr ["a", "b"])]
          ∧ ([("city", FieldVal.nullV), ("cats", FieldVal.arr ["a", "b"])]
              : List (String × FieldVal)) ≠ [])
    ∧ cleanField ["c1"] ⟨"city", false⟩ (some (.str "c1"))
        = (if "c1" ∈ ["c1"] then some FieldVal.nullV else none) :=
  ⟨by decide,
    (reference_cleaning c7items c7fields ["c1"] (by decide)).1
      ("s1", [("city", FieldVal.nullV), ("cats", FieldVal.arr ["a", "b"])]),
    (reference_cleaning c7items c7fields ["c1"] (by decide)).2.2.2
      ⟨"city", false⟩ "c1" rfl⟩

/-! ### `src/utils/webflow.ts` `fetchAllItems` — pagination and
deduplication -/

/-- A row of the paginated listing response, as `fetchAllItems` pushes
it: `{ id, fieldData }` with the id possibly absent. -/
structure Row where
  id : Option String
  fieldData : List (String × String)
deriving DecidableEq

/-- One listing response: its items and the reported total. -/
structure Page where
  items : List Row
  total : Nat
deriving DecidableEq

/-- The pagination loop of `fetchAllItems` (webflow.ts lines 62–80):
append each response's items, advance the offset by the page size, and
stop once the reported total is reached or a page comes back empty. -/
def fetchLoop : List Page → Nat → List Row
  | [], _ => []
  | p :: rest, offset =>
      if offset + p.items.length ≥ p.total ∨ p.items.length = 0 then p.items
      else p.items ++ fetchLoop rest (offset + p.items.length)

/-- The dedup filter of `fetchAllItems` (webflow.ts lines 83–90):
`if (!item.id || seen.has(item.id)) return false` — the first row per
truthy id survives, rows without an id are dropped. -/
def dedupRows : List Row → List String → List Row
  | [], _ => []
  | r :: rest, seen =>
      match r.id with
      | none => dedupRows rest seen
      | some i =>
          if i == "" then dedupRows rest seen
          else if i ∈ seen then dedupRows rest seen
          else r :: dedupRows rest (i :: seen)

/-- `fetchAllItems` (webflow.ts): the flat row list, deduplicated by
Webflow item id when more than one locale id was requested. -/
def fetchAllItems (responses : List Page) (cmsLocaleIds : List String) : List Row :=
  if 1 < cmsLocaleIds.length then dedupRows (fetchLoop responses 0) []
  else fetchLoop responses 0

theorem mem_dedupRows {l : List Row} {seen : List String} {r : Row}
    (h : r ∈ dedupRows l seen) :
    r ∈ l ∧ ∃ i, r.id = some i ∧ i ≠ "" ∧ i ∉ seen := by
  induction l generalizing seen with
  | nil => simp [dedupRows] at h
  | cons r0 rest ih =>
      cases hid : r0.id with
      | none =>
          simp only [dedupRows, hid] at h
          obtain ⟨hm, hi⟩ := ih h
          exact ⟨List.mem_cons_of_mem _ hm, hi⟩
      | some i0 =>
          simp only [dedupRows, hid] at h
          by_cases he : (i0 == "") = true
          · rw [if_pos he] at h
            obtain ⟨hm, hi⟩ := ih h
            exact ⟨List.mem_cons_of_mem _ hm, hi⟩
          · rw [if_neg he] at h
            by_cases hs : i0 ∈ seen
            · rw [if_pos hs] at h
              obtain ⟨hm, hi⟩ := ih h
              exact ⟨List.mem_cons_of_mem _ hm, hi⟩
            · rw [if_neg hs] at h
              rcases List.mem_cons.mp h with rfl | h'
              · exact ⟨List.mem_cons_self _ _,
                  i0, hid, fun hc => he (by rw [hc]; rfl), hs⟩
              · obtain ⟨hm, i, hri, hne, hns⟩ := ih h'
                refine ⟨List.mem_cons_of_mem _ hm, i, hri, hne, fun hc => ?_⟩
                exact hns (List.mem_cons_of_mem _ hc)

theorem dedupRows_pairwise (l : List Row) (seen : List String) :
    (dedupRows l seen).Pairwise (fun a b => a.id ≠ b.id) := by
  induction l generalizing seen with
  | nil => simp [dedupRows]
  | cons r0 rest ih =>
      cases hid : r0.id with
      | none => simpa [dedupRows, hid] using ih seen
      | some i0 =>
          simp only [dedupRows, hid]
          by_cases he : (i0 == "") = true
          · rw [if_pos he]; exact ih seen
          · rw [if_neg he]
            by_cases hs : i0 ∈ seen
            · rw [if_pos hs]; exact ih seen
            · rw [if_neg hs]
              refine List.pairwise_cons.mpr ⟨?_, ih (i0 :: seen)⟩
              intro b hb
              obtain ⟨_, i, hbi, _, hbs⟩ := mem_dedupRows hb
              rw [hid, hbi]
              intro hc
              have : i0 = i := by injection hc
              exact hbs (this ▸ List.mem_cons_self _ _)

theorem dedupRows_first {l : List Row} {seen : List String} {r : Row}
    (h : r ∈ dedupRows l seen) :
    ∃ i, r.id = some i ∧ l.find? (fun r' => r'.id == some i) = some r := by
  induction l generalizing seen with
  | nil => simp [dedupRows] at h
  | cons r0 rest ih =>
      cases hid : r0.id with
      | none =>
          simp only [dedupRows, hid] at h
          obtain ⟨i, hri, hfind⟩ := ih h
          refine ⟨i, hri, ?_⟩
          rw [List.find?_cons_of_neg _ (by simp [hid]), hfind]
      | some i0 =>
          simp only [dedupRows, hid] at h
          by_cases he : (i0 == "") = true
          · rw [if_pos he] at h
            obtain ⟨i, hri, hfind⟩ := ih h
            obtain ⟨_, i', hri', hne', _⟩ := mem_dedupRows h
            have hii : i' = i := by
              rw [hri] at hri'
              injection hri' with hh
              exact hh.symm
            subst hii
            refine ⟨i', hri, ?_⟩
            rw [List.find?_cons_of_neg, hfind]
            simp only [hid, Option.some_beq_some]
            intro hc
            exact hne' ((eq_of_beq hc) ▸ (eq_of_beq he))
          · rw [if_neg he] at h
            by_cases hs : i0 ∈ seen
            · rw [if_pos hs] at h
              obtain ⟨i, hri, hfind⟩ := ih h
              obtain ⟨_, i', hri', _, hns'⟩ := mem_dedupRows h
              have hii : i' = i := by
                rw [hri] at hri'
                injection hri' with hh
                exact hh.symm
              subst hii
              refine ⟨i', hri, ?_⟩
              rw [List.find?_cons_of_neg, hfind]
              simp only [hid, Option.some_beq_some]
              intro hc
              exact hns' ((eq_of_beq hc) ▸ hs)
            · rw [if_neg hs] at h
              rcases List.mem_cons.mp h with rfl | h'
              · refine ⟨i0, hid, ?_⟩
                rw [List.find?_cons_of_pos _ (by simp [hid])]
              · obtain ⟨i, hri, hfind⟩ := ih h'
                obtain ⟨_, i', hri', _, hns'⟩ := mem_dedupRows h'
                have hii : i' = i := by
                  rw [hri] at hri'
                  injection hri' with hh
                  exact hh.symm
                subst hii
                refine ⟨i', hri, ?_⟩
                rw [List.find?_cons_of_neg, hfind]
                simp only [hid, Option.some_beq_some]
                intro hc
                refine hns' ?_
                rw [← eq_of_beq hc]
                exact List.mem_cons_self _ _

theorem dedupRows_covers {l : List Row} {seen : List String} {row : Row} {i : String}
    (hm : row ∈ l) (hid : row.id = some i) (hne : i ≠ "") (hns : i ∉ seen) :
    ∃ r ∈ dedupRows l seen, r.id = some i := by
  induction l generalizing seen with
  | nil => simp at hm
  | cons r0 rest ih =>
      rcases List.mem_cons.mp hm with rfl | hm'
      · simp only [dedupRows, hid]
        rw [if_neg (by simp [hne]), if_neg hns]
        exact ⟨row, List.mem_cons_self _ _, hid⟩
      · cases hid0 : r0.id with
        | none =>
            simp only [dedupRows, hid0]
            exact ih hm' hns
        | some i0 =>
            simp only [dedupRows, hid0]
            by_cases he : (i0 == "") = true
            · rw [if_pos he]
              exact ih hm' hns
            · rw [if_neg he]
              by_cases hs : i0 ∈ seen
              · rw [if_pos hs]
                exact ih hm' hns
              · rw [if_neg hs]
                by_cases hii : i = i0
                · exact ⟨r0, List.mem_cons_self _ _, by rw [hid0, hii]⟩
                · obtain ⟨r, hr, hri⟩ := ih hm' (fun hc => by
                    rcases List.mem_cons.mp hc with hc' | hc'
                    · exact hii hc'
                    · exact hns hc')
                  exact ⟨r, List.mem_cons_of_mem _ hr, hri⟩

/-- C10: when `fetchAllItems` is called with more than one locale id,
its result carries at most one row per Webflow item id — pairwise
distinct ids, each surviving row being the first row with its id in
page order — and every truthy id of the flat fetch survives, so every
consumer sees each remote item exactly once. -/
theorem fetch_dedup (responses : List Page) (cmsLocaleIds : List String)
    (hloc : 1 < cmsLocaleIds.length) :
    (fetchAllItems responses cmsLocaleIds).Pairwise (fun a b => a.id ≠ b.id)
    ∧ (∀ r ∈ fetchAllItems responses cmsLocaleIds,
        ∃ i, r.id = some i ∧ i ≠ ""
          ∧ (fetchLoop responses 0).find? (fun r' => r'.id == some i) = some r)
    ∧ (∀ row ∈ fetchLoop responses 0, ∀ i, row.id = some i → i ≠ "" →
        ∃ r ∈ fetchAllItems responses cmsLocaleIds, r.id = some i) := by
  have hfa : fetchAllItems responses cmsLocaleIds
      = dedupRows (fetchLoop responses 0) [] := by
    unfold fetchAllItems
    rw [if_pos hloc]
  rw [hfa]
  refine ⟨dedupRows_pairwise _ _, ?_, ?_⟩
  · intro r hr
    obtain ⟨_, i, hri, hne, _⟩ := mem_dedupRows hr
    obtain ⟨i', hri', hfind⟩ := dedupRows_first hr
    have hii : i' = i := by
      rw [hri] at hri'
      injection hri' with hh
      exact hh.symm
    subst hii
    exact ⟨i', hri, hne, hfind⟩
  · intro row hrow i hid hne
    exact dedupRows_covers hrow hid hne (by simp)

/-- The two listing responses of the C10 witness: item `w1` appears on
both pages (two locale variants), one row has no id. -/
def c10responses : List Page :=
  [⟨[⟨some "w1", [("external-id", "a")]⟩, ⟨some "w2", [("external-id", "b")]⟩], 4⟩,
   ⟨[⟨some "w1", [("external-id", "a2")]⟩, ⟨none, []⟩], 4⟩]

/-- Witness for C10 on a concrete two-page fetch with a duplicate id. -/
theorem fetch_dedup_witness :
    1 < (["lA", "lB"] : List String).length
    ∧ (fetchAllItems c10responses ["lA", "lB"]).Pairwise (fun a b => a.id ≠ b.id)
    ∧ fetchAllItems c10responses ["lA", "lB"]
        = [⟨some "w1", [("external-id", "a")]⟩, ⟨some "w2", [("external-id", "b")]⟩] :=
  ⟨by decide, (fetch_dedup c10responses ["lA", "lB"] (by decide)).1, by decide⟩

/-! ### `src/utils/rate-limiter.ts` — token-bucket scheduler

`createRateLimiter` chains every scheduled operation onto one promise
queue, so operations run strictly one at a time in submission order;
before each it waits while the token count is zero (sleeping one refill
interval at a time) and then tops the wall-clock gap since the previous
start up to `minTime`.  The embedding gives the closure state
(`tokens`, `lastRequestTime`) explicitly, together with a discrete
clock: `now` advances exactly during the awaited delays and the wrapped
operation, and the `setInterval` refill timer adds one token (capped at
`maxTokens`) at each of its scheduled instants `nextRefill`,
`nextRefill + refillInterval`, ….  The queue chaining appears as the
sequential fold `runOps`. -/

/-- The limiter options after defaulting (rate-limiter.ts lines 25–29). -/
structure RLConfig where
  minTime : Nat
  maxTokens : Nat
  refillInterval : Nat
deriving DecidableEq

/-- The limiter's mutable state plus the discrete clock: current time,
token count, the next instant the refill timer fires, and
`lastRequestTime`. -/
structure RLState where
  now : Nat
  tokens : Nat
  nextRefill : Nat
  lastRequest : Nat
deriving DecidableEq

/-- One firing of the refill timer (rate-limiter.ts lines 33–35). -/
def refillOnce (cfg : RLConfig) (tk : Nat) : Nat :=
  if tk < cfg.maxTokens then tk + 1 else tk

/-- How many refill instants fall within the next `d` milliseconds. -/
def ticksIn (cfg : RLConfig) (s : RLState) (d : Nat) : Nat :=
  if s.nextRefill ≤ s.now + d then (s.now + d - s.nextRefill) / cfg.refillInterval + 1
  else 0

/-- Let `d` milliseconds pass (an awaited delay or the wrapped
operation's own duration): the clock advances and the refill timer
fires at each scheduled instant passed. -/
def advanceTime (cfg : RLConfig) (s : RLState) (d : Nat) : RLState :=
  { now := s.now + d
    tokens := (refillOnce cfg)^[ticksIn cfg s d] s.tokens
    nextRefill := s.nextRefill + cfg.refillInterval * ticksIn cfg s d
    lastRequest := s.lastRequest }

/-- The `while (tokens <= 0) await delay(refillInterval)` loop of
`waitForSlot`, with explicit fuel (under the clock invariant one
iteration always produces a token, so fuel 2 suffices). -/
def tokenWait (cfg : RLConfig) : Nat → RLState → Option RLState
  | 0, s => if s.tokens = 0 then none else some s
  | fuel + 1, s =>
      if s.tokens = 0 then tokenWait cfg fuel (advanceTime cfg s cfg.refillInterval)
      else some s

/-- The minimum-spacing wait of `waitForSlot` (rate-limiter.ts lines
46–52). -/
def minWait (cfg : RLConfig) (s : RLState) : RLState :=
  if s.now - s.lastRequest < cfg.minTime then
    advanceTime cfg s (cfg.minTime - (s.now - s.lastRequest))
  else s

/-- One scheduled operation of duration `d` (rate-limiter.ts lines
59–64): wait for a slot, consume a token, stamp `lastRequestTime`, run
the operation.  Returns its start time, the token count at its start,
and the resulting state. -/
def runOp (cfg : RLConfig) (d : Nat) (s : RLState) : Option (Nat × Nat × RLState) :=
  match tokenWait cfg 2 s with
  | none => none
  | some s1 =>
      let s2 := minWait cfg s1
      let s3 : RLState := ⟨s2.now, s2.tokens - 1, s2.nextRefill, s2.now⟩
      some (s2.now, s2.tokens, advanceTime cfg s3 d)

/-- The promise queue: operations execute strictly one at a time in
submission order; each starts only after the previous one finished. -/
def runOps (cfg : RLConfig) : List Nat → RLState → Option (List (Nat × Nat) × RLState)
  | [], s => some ([], s)
  | d :: ds, s =>
      match runOp cfg d s with
      | none => none
      | some (st, tk, s') =>
          match runOps cfg ds s' with
          | none => none
          | some (l, sf) => some ((st, tk) :: l, sf)

/-- Clock invariant: the next refill instant lies strictly ahead, at
most one interval away, and the last request is in the past. -/
def Inv (cfg : RLConfig) (s : RLState) : Prop :=
  s.now < s.nextRefill ∧ s.nextRefill ≤ s.now + cfg.refillInterval
    ∧ s.lastRequest ≤ s.now

theorem refillOnce_ge (cfg : RLConfig) (tk : Nat) : tk ≤ refillOnce cfg tk := by
  unfold refillOnce
  split <;> omega

theorem iterate_refill_ge (cfg : RLConfig) (k tk : Nat) :
    tk ≤ (refillOnce cfg)^[k] tk := by
  induction k generalizing tk with
  | zero => simp
  | succ n ih =>
      rw [Function.iterate_succ_apply]
      exact le_trans (refillOnce_ge cfg tk) (ih _)

theorem iterate_refill_le (cfg : RLConfig) (k tk : Nat) :
    (refillOnce cfg)^[k] tk ≤ tk + k := by
  induction k generalizing tk with
  | zero => simp
  | succ n ih =>
      rw [Function.iterate_succ_apply]
      refine le_trans (ih _) ?_
      unfold refillOnce
      split <;> omega

theorem iterate_refill_pos (cfg : RLConfig) (k tk : Nat) (hmax : 1 ≤ cfg.maxTokens)
    (h : 1 ≤ tk ∨ 1 ≤ k) : 1 ≤ (refillOnce cfg)^[k] tk := by
  rcases h with h1 | hk
  · exact le_trans h1 (iterate_refill_ge cfg k tk)
  · cases k with
    | zero => omega
    | succ n =>
        rw [Function.iterate_succ_apply]
        refine le_trans ?_ (iterate_refill_ge cfg n _)
        unfold refillOnce
        split <;> omega

theorem advanceTime_inv (cfg : RLConfig) (s : RLState) (d : Nat)
    (hri : 0 < cfg.refillInterval) (h : Inv cfg s) :
    Inv cfg (advanceTime cfg s d) := by
  obtain ⟨h1, h2, h3⟩ := h
  unfold advanceTime Inv ticksIn
  by_cases hc : s.nextRefill ≤ s.now + d
  · rw [if_pos hc]
    have hdm := Nat.div_add_mod (s.now + d - s.nextRefill) cfg.refillInterval
    have hmod := Nat.mod_lt (s.now + d - s.nextRefill) hri
    simp only [Nat.mul_succ]
    refine ⟨?_, ?_, ?_⟩ <;> omega
  · rw [if_neg hc]
    simp only [Nat.mul_zero, Nat.add_zero]
    refine ⟨by omega, by omega, by omega⟩

theorem advanceTime_fields (cfg : RLConfig) (s : RLState) (d : Nat) :
    (advanceTime cfg s d).now = s.now + d
    ∧ (advanceTime cfg s d).lastRequest = s.lastRequest
    ∧ (advanceTime cfg s d).nextRefill
        = s.nextRefill + cfg.refillInterval * ticksIn cfg s d
    ∧ (advanceTime cfg s d).tokens ≤ s.tokens + ticksIn cfg s d
    ∧ s.tokens ≤ (advanceTime cfg s d).tokens := by
  refine ⟨rfl, rfl, rfl, iterate_refill_le cfg _ _, iterate_refill_ge cfg _ _⟩

theorem tokenWait_spec (cfg : RLConfig) (s : RLState) (hri : 0 < cfg.refillInterval)
    (hmax : 1 ≤ cfg.maxTokens) (hInv : Inv cfg s) :
    ∃ s1, tokenWait cfg 2 s = some s1 ∧ Inv cfg s1 ∧ 1 ≤ s1.tokens
      ∧ s1.lastRequest = s.lastRequest ∧ s.now ≤ s1.now
      ∧ ∃ k, s1.nextRefill = s.nextRefill + cfg.refillInterval * k
          ∧ s1.tokens ≤ s.tokens + k := by
  by_cases h0 : s.tokens = 0
  · have hticks : 1 ≤ ticksIn cfg s cfg.refillInterval := by
      unfold ticksIn
      rw [if_pos (show s.nextRefill ≤ s.now + cfg.refillInterval from hInv.2.1)]
      exact Nat.le_add_left 1 _
    have htk : 1 ≤ (advanceTime cfg s cfg.refillInterval).tokens := by
      unfold advanceTime
      exact iterate_refill_pos cfg _ _ hmax (Or.inr hticks)
    have hne : ¬(advanceTime cfg s cfg.refillInterval).tokens = 0 := by omega
    refine ⟨advanceTime cfg s cfg.refillInterval, ?_, ?_, htk, ?_, ?_, ?_⟩
    · unfold tokenWait
      rw [if_pos h0]
      unfold tokenWait
      rw [if_neg hne]
    · exact advanceTime_inv cfg s _ hri hInv
    · exact (advanceTime_fields cfg s _).2.1
    · rw [(advanceTime_fields cfg s _).1]; omega
    · refine ⟨ticksIn cfg s cfg.refillInterval,
        (advanceTime_fields cfg s _).2.2.1, ?_⟩
      exact (advanceTime_fields cfg s _).2.2.2.1
  · refine ⟨s, ?_, hInv, by omega, rfl, le_rfl, 0, by simp, by omega⟩
    unfold tokenWait
    rw [if_neg h0]

theorem minWait_spec (cfg : RLConfig) (s : RLState) (hri : 0 < cfg.refillInterval)
    (hInv : Inv cfg s) :
    Inv cfg (minWait cfg s)
    ∧ s.lastRequest + cfg.minTime ≤ (minWait cfg s).now
    ∧ (minWait cfg s).lastRequest = s.lastRequest
    ∧ s.tokens ≤ (minWait cfg s).tokens
    ∧ ∃ k, (minWait cfg s).nextRefill = s.nextRefill + cfg.refillInterval * k
        ∧ (minWait cfg s).tokens ≤ s.tokens + k := by
  unfold minWait
  by_cases hc : s.now - s.lastRequest < cfg.minTime
  · rw [if_pos hc]
    have hlr : s.lastRequest ≤ s.now := hInv.2.2
    refine ⟨advanceTime_inv cfg s _ hri hInv, ?_,
      (advanceTime_fields cfg s _).2.1, (advanceTime_fields cfg s _).2.2.2.2, ?_⟩
    · rw [(advanceTime_fields cfg s _).1]
      omega
    · exact ⟨ticksIn cfg s _, (advanceTime_fields cfg s _).2.2.1,
        (advanceTime_fields cfg s _).2.2.2.1⟩
  · rw [if_neg hc]
    have hlr : s.lastRequest ≤ s.now := hInv.2.2
    exact ⟨hInv, by omega, rfl, le_rfl, 0, by simp, by omega⟩

theorem runOp_spec (cfg : RLConfig) (d : Nat) (s : RLState)
    (hri : 0 < cfg.refillInterval) (hmax : 1 ≤ cfg.maxTokens) (hInv : Inv cfg s) :
    ∃ st tk s', runOp cfg d s = some (st, tk, s')
      ∧ Inv cfg s'
      ∧ 1 ≤ tk
      ∧ s.lastRequest + cfg.minTime ≤ st
      ∧ s'.lastRequest = st
      ∧ ∃ k, s'.nextRefill = s.nextRefill + cfg.refillInterval * k
          ∧ s'.tokens + 1 ≤ s.tokens + k := by
  obtain ⟨s1, hw, hInv1, htk1, hlr1, hnow1, k1, hnr1, htkle1⟩ :=
    tokenWait_spec cfg s hri hmax hInv
  obtain ⟨hInv2, hstart2, hlr2, htkge2, k2, hnr2, htkle2⟩ :=
    minWait_spec cfg s1 hri hInv1
  set s2 := minWait cfg s1 with hs2
  set s3 : RLState := ⟨s2.now, s2.tokens - 1, s2.nextRefill, s2.now⟩ with hs3
  have hInv3 : Inv cfg s3 := ⟨hInv2.1, hInv2.2.1, le_rfl⟩
  have htks2 : 1 ≤ s2.tokens := le_trans htk1 htkge2
  refine ⟨s2.now, s2.tokens, advanceTime cfg s3 d, ?_, ?_, htks2, ?_, ?_, ?_⟩
  · unfold runOp
    rw [hw]
  · exact advanceTime_inv cfg s3 d hri hInv3
  · rw [← hlr1]
    exact hlr2 ▸ hstart2
  · exact (advanceTime_fields cfg s3 d).2.1
  · refine ⟨k1 + k2 + ticksIn cfg s3 d, ?_, ?_⟩
    · rw [(advanceTime_fields cfg s3 d).2.2.1]
      have : s3.nextRefill = s2.nextRefill := rfl
      rw [this, hnr2, hnr1]
      ring
    · have h4 := (advanceTime_fields cfg s3 d).2.2.2.1
      have : s3.tokens = s2.tokens - 1 := rfl
      omega

theorem runOps_spec (cfg : RLConfig) :
    ∀ (ds : List Nat) (s : RLState), 0 < cfg.refillInterval → 1 ≤ cfg.maxTokens →
      Inv cfg s →
      ∃ starts sf, runOps cfg ds s = some (starts, sf)
        ∧ starts.length = ds.length
        ∧ Inv cfg sf
        ∧ (∀ p ∈ starts, 1 ≤ p.2)
        ∧ (∀ p ∈ starts.head?, s.lastRequest + cfg.minTime ≤ p.1)
        ∧ List.Chain' (fun a b => a.1 + cfg.minTime ≤ b.1) starts
        ∧ ∃ K, sf.nextRefill = s.nextRefill + cfg.refillInterval * K
            ∧ sf.tokens + ds.length ≤ s.tokens + K := by
  intro ds
  induction ds with
  | nil =>
      intro s hri hmax hInv
      exact ⟨[], s, rfl, rfl, hInv, by simp, by simp, List.chain'_nil,
        0, by simp, by simp⟩
  | cons d rest ih =>
      intro s hri hmax hInv
      obtain ⟨st, tk, s', hop, hInv', htk, hst, hlr', k, hnr, htkle⟩ :=
        runOp_spec cfg d s hri hmax hInv
      obtain ⟨l, sf, hrun, hlen, hInvf, hpos, hhead, hchain, K, hnrf, htklef⟩ :=
        ih s' hri hmax hInv'
      refine ⟨(st, tk) :: l, sf, ?_, by simp [hlen], hInvf, ?_, ?_, ?_, ?_⟩
      · simp only [runOps, hop, hrun]
      · intro p hp
        rcases List.mem_cons.mp hp with rfl | hp'
        · exact htk
        · exact hpos p hp'
      · intro p hp
        simp only [List.head?_cons, Option.mem_def, Option.some.injEq] at hp
        subst hp
        exact hst
      · refine List.chain'_cons'.mpr ⟨?_, hchain⟩
        intro b hb
        have := hhead b hb
        rw [hlr'] at this
        exact this
      · refine ⟨k + K, ?_, ?_⟩
        · rw [hnrf, hnr]
          ring
        · simp only [List.length_cons]
          omega

/-- C9: for every sequence of operations submitted to one limiter,
the modelled scheduler runs them one at a time in submission order
(the sequential fold `runOps`), the start times of consecutive
operations are at least `minTime` apart, every operation starts with a
positive token count (one of which it consumes), and hence the number
of operations started is at most the initial token count plus the
number of refill-timer firings during the run — in particular, with no
refill at most the bucket's tokens can start. -/
theorem rate_limiter_compliance (cfg : RLConfig) (ds : List Nat) (s : RLState)
    (hri : 0 < cfg.refillInterval) (hmax : 1 ≤ cfg.maxTokens) (hInv : Inv cfg s) :
    ∃ starts sf, runOps cfg ds s = some (starts, sf)
      ∧ starts.length = ds.length
      ∧ List.Chain' (fun a b => a.1 + cfg.minTime ≤ b.1) starts
      ∧ (∀ p ∈ starts, 1 ≤ p.2)
      ∧ ds.length ≤ s.tokens + (sf.nextRefill - s.nextRefill) / cfg.refillInterval := by
  obtain ⟨starts, sf, hrun, hlen, _, hpos, _, hchain, K, hnrf, htklef⟩ :=
    runOps_spec cfg ds s hri hmax hInv
  refine ⟨starts, sf, hrun, hlen, hchain, hpos, ?_⟩
  have hdiv : (sf.nextRefill - s.nextRefill) / cfg.refillInterval = K := by
    rw [hnrf]
    simp only [Nat.add_sub_cancel_left]
    exact Nat.mul_div_cancel_left K hri
  omega

/-- Witness for C9: three operations through a limiter with
`minTime = 2`, three tokens and a 5 ms refill interval. -/
theorem rate_limiter_compliance_witness :
    (0 < (⟨2, 3, 5⟩ : RLConfig).refillInterval
      ∧ 1 ≤ (⟨2, 3, 5⟩ : RLConfig).maxTokens
      ∧ Inv ⟨2, 3, 5⟩ ⟨0, 3, 5, 0⟩)
    ∧ (∃ starts sf, runOps ⟨2, 3, 5⟩ [1, 0, 4] ⟨0, 3, 5, 0⟩ = some (starts, sf)
        ∧ starts.length = ([1, 0, 4] : List Nat).length
        ∧ List.Chain' (fun a b => a.1 + (⟨2, 3, 5⟩ : RLConfig).minTime ≤ b.1) starts
        ∧ (∀ p ∈ starts, 1 ≤ p.2)
        ∧ ([1, 0, 4] : List Nat).length
            ≤ (⟨0, 3, 5, 0⟩ : RLState).tokens
              + (sf.nextRefill - (⟨0, 3, 5, 0⟩ : RLState).nextRefill)
                / (⟨2, 3, 5⟩ : RLConfig).refillInterval) :=
  ⟨⟨by decide, by decide, by decide, by decide, by decide⟩,
    rate_limiter_compliance ⟨2, 3, 5⟩ [1, 0, 4] ⟨0, 3, 5, 0⟩
      (by decide) (by decide) ⟨by decide, by decide, by decide⟩⟩

end WebflowSync
